import Mathlib

/-!
Shallow embedding of the `skiplist` Go package (Laisky/fast-skiplist).

The Go structure is a pointer graph; here every `*Element` is modeled as an index
into an explicit node store (`SkipList.store`), a `nil` pointer is `Option.none`,
and the header's embedded `elementNode` is the `Ptr.head` position.  The mutex is
dropped (operations are modeled as pure state transformers, matching the code's
behavior under its single coarse lock).  The process-wide random source is modeled
by passing the drawn height to `Set` (the result of `randLevel`) and the uniform
draw to `randLevel` as explicit arguments; `float64` arithmetic on probabilities is
modeled over `ℚ`.  Go's `int` is modeled as `Int` where its sign can matter
(`length`, the `maxLevel` constructor argument) and as `Nat` for loop indices.
Array reads out of bounds (which would panic in Go) are modeled as total `getD`
reads; the safety claim states that under the reachable-state invariant every such
read and write is in bounds.
-/

namespace Skiplist

/-- Pointer to an `elementNode`: either the list header's embedded node or the
element stored at index `n` of the node store.  A `nil` `*Element` is `none`. -/
inductive Ptr where
  | head : Ptr
  | node : Nat → Ptr
deriving DecidableEq

/-- One key/value pair of the list (`Element` in `type.go`).  `next` is the embedded
`elementNode` forward-pointer array; its length is the node's height.  Keys are
`Int` (one admissible `Sortable` instantiation); values are an opaque payload `V`
(`interface{}`). -/
structure Element (V : Type) where
  next : List (Option Nat)
  key : Int
  value : V
deriving DecidableEq

/-- Key accessor (`Element.Key`). -/
def Element.Key {V : Type} (e : Element V) : Int := e.key

/-- Value accessor (`Element.Value`). -/
def Element.Value {V : Type} (e : Element V) : V := e.value

/-- Level-0 successor accessor (`Element.Next`), i.e. `e.next[0]`. -/
def Element.Next {V : Type} (e : Element V) : Option Nat := e.next.getD 0 none

/-- The `SkipList` container.  Field for field from `type.go`, except that the
mutex is dropped and `randSource` is replaced by explicit random arguments. -/
structure SkipList (V : Type) where
  next : List (Option Nat)
  maxLevel : Nat
  length : Int
  probability : ℚ
  probTable : List ℚ
  prevNodesCache : List (Option Ptr)
  store : List (Element V)
deriving DecidableEq

variable {V : Type}

/-- Dereference `p.next[i]`: the level-`i` forward pointer at position `p`. -/
def SkipList.ptrNext (s : SkipList V) (p : Ptr) (i : Nat) : Option Nat :=
  match p with
  | .head => s.next.getD i none
  | .node n =>
    match s.store.get? n with
    | some e => e.next.getD i none
    | none => none

/-- Key of the node stored at index `n` (0 for a dangling index, which the
invariant rules out). -/
def SkipList.keyAt (s : SkipList V) (n : Nat) : Int :=
  match s.store.get? n with
  | some e => e.key
  | none => 0

/-- Height of the node stored at index `n`: the length of its forward-pointer
array. -/
def SkipList.heightAt (s : SkipList V) (n : Nat) : Nat :=
  match s.store.get? n with
  | some e => e.next.length
  | none => 0

/-- Value of the node stored at index `n`. -/
def SkipList.valueAt (s : SkipList V) (n : Nat) : Option V :=
  (s.store.get? n).map Element.value

/-- Overwrite the traversal cache (`list.prevNodesCache`). -/
def SkipList.setCache (s : SkipList V) (c : List (Option Ptr)) : SkipList V :=
  { s with prevNodesCache := c }

/-- Write `q.next[i] = v`.  Writing through a dangling node index is a no-op here
(it would be impossible in Go, where a non-nil pointer is always valid). -/
def SkipList.writePtr (s : SkipList V) (q : Ptr) (i : Nat) (v : Option Nat) : SkipList V :=
  match q with
  | .head => { s with next := s.next.set i v }
  | .node n =>
    match s.store.get? n with
    | some e => { s with store := s.store.set n { e with next := e.next.set i v } }
    | none => s

/-- Append a freshly allocated element to the store. -/
def SkipList.pushElem (s : SkipList V) (e : Element V) : SkipList V :=
  { s with store := s.store ++ [e] }

/-- Replace the value of node `n` in place (`element.value = value`). -/
def SkipList.setValue (s : SkipList V) (n : Nat) (v : V) : SkipList V :=
  match s.store.get? n with
  | some e => { s with store := s.store.set n { e with value := v } }
  | none => s

/-- Set the `length` field. -/
def SkipList.setLen (s : SkipList V) (n : Int) : SkipList V :=
  { s with length := n }

/-- The inner `for next != nil && key > next.key` loop of `getPrevElementNodes`
(and of `Get`), at level `i`, starting from position `p`.  The loop is fueled;
every caller passes fuel `s.store.length`, which the invariant proves sufficient. -/
def SkipList.walkLevel (s : SkipList V) (key : Int) (i : Nat) : Nat → Ptr → Ptr
  | 0, p => p
  | fuel + 1, p =>
    match s.ptrNext p i with
    | none => p
    | some nid => if s.keyAt nid < key then s.walkLevel key i fuel (.node nid) else p

/-- The outer level-descending loop of `getPrevElementNodes`: processes levels
`n-1, n-2, …, 0`, carrying the horizontal position down, and returns the list
whose entry at index `i` is the predecessor recorded at level `i`. -/
def SkipList.getPrevAux (s : SkipList V) (key : Int) (fuel : Nat) : Nat → Ptr → List Ptr
  | 0, _ => []
  | n + 1, p =>
    let p2 := s.walkLevel key n fuel p
    s.getPrevAux key fuel n p2 ++ [p2]

/-- Predecessor search (`getPrevElementNodes`): for each level from `maxLevel-1`
down to `0`, the rightmost position strictly before `key`. -/
def SkipList.getPrevElementNodes (s : SkipList V) (key : Int) : List Ptr :=
  s.getPrevAux key s.store.length s.maxLevel .head

/-- The insertion loop of `Set`:
`for i := range element.next { element.next[i] = prevs[i].next[i]; prevs[i].next[i] = element }`,
executed sequentially for levels `0 … n-1`. -/
def SkipList.insertLinks (prevs : List Ptr) (newId : Nat) : Nat → SkipList V → SkipList V
  | 0, s => s
  | n + 1, s =>
    let s' := SkipList.insertLinks prevs newId n s
    let v := s'.ptrNext (prevs.getD n .head) n
    (s'.writePtr (.node newId) n v).writePtr (prevs.getD n .head) n (some newId)

/-- The unlink loop of `Remove`:
`for k, v := range element.next { prevs[k].next[k] = v }`, executed sequentially
for levels `0 … n-1`, reading `v` from the current state. -/
def SkipList.removeLinks (prevs : List Ptr) (nid : Nat) : Nat → SkipList V → SkipList V
  | 0, s => s
  | n + 1, s =>
    let s' := SkipList.removeLinks prevs nid n s
    s'.writePtr (prevs.getD n .head) n (s'.ptrNext (.node nid) n)

/-- The insertion branch of `Set`: allocate a new element whose forward array has
length `lvl` (the drawn height), splice it in at levels `0 … lvl-1`, and increment
the count. -/
def SkipList.insertElement (s : SkipList V) (prevs : List Ptr) (key : Int) (value : V)
    (lvl : Nat) : SkipList V × Ptr :=
  let newId := s.store.length
  let s2 := s.pushElem ⟨List.replicate lvl none, key, value⟩
  let s3 := SkipList.insertLinks prevs newId lvl s2
  (s3.setLen (s3.length + 1), .node newId)

/-- Insert-or-update (`Set`).  `lvl` stands for the height drawn by
`list.randLevel()` at this call.  The `fmt.Println(element.key)` debug statement on
the (unreachable) `element.key < key` sub-branch has no state effect and is not
modeled.  Returns the new state and the returned `*Element`. -/
def SkipList.Set (s : SkipList V) (key : Int) (value : V) (lvl : Nat) : SkipList V × Ptr :=
  let prevs := s.getPrevElementNodes key
  let s1 := s.setCache (prevs.map some)
  match s1.ptrNext (prevs.getD 0 .head) 0 with
  | some nid =>
    if s1.keyAt nid ≤ key then (s1.setValue nid value, .node nid)
    else s1.insertElement prevs key value lvl
  | none => s1.insertElement prevs key value lvl

/-- Deletion (`Remove`).  Returns the new state and the removed `*Element` (or
`none` when the key is absent). -/
def SkipList.Remove (s : SkipList V) (key : Int) : SkipList V × Option Ptr :=
  let prevs := s.getPrevElementNodes key
  let s1 := s.setCache (prevs.map some)
  match s1.ptrNext (prevs.getD 0 .head) 0 with
  | some nid =>
    if s1.keyAt nid ≤ key then
      ((SkipList.removeLinks prevs nid (s1.heightAt nid) s1).setLen (s1.length - 1),
        some (.node nid))
    else (s1, none)
  | none => (s1, none)

/-- The level-descending search loop of `Get`, with `n` levels left to process;
returns the final value of the local variable `next` after the level-0 pass. -/
def SkipList.getLoop (s : SkipList V) (key : Int) (fuel : Nat) : Nat → Ptr → Option Nat
  | 0, _ => none
  | 1, p => s.ptrNext (s.walkLevel key 0 fuel p) 0
  | n + 2, p => s.getLoop key fuel (n + 1) (s.walkLevel key (n + 1) fuel p)

/-- Lookup (`Get`): local traversal (no shared cache), then the exact-equality
check `next != nil && next.key == key`. -/
def SkipList.Get (s : SkipList V) (key : Int) : Option Ptr :=
  match s.getLoop key s.store.length s.maxLevel .head with
  | some nid => if s.keyAt nid = key then some (.node nid) else none
  | none => none

/-- Head of the level-0 chain (`Front`): `list.next[0]`. -/
def SkipList.Front (s : SkipList V) : Option Nat := s.next.getD 0 none

/-- Number of elements (`Len`). -/
def SkipList.Len (s : SkipList V) : Int := s.length

/-- The probability table: `table[i] = probability^i` for `i = 0 … MaxLevel-1`
(the Go loop appends `math.Pow(probability, i-1)` for `i = 1 … MaxLevel`). -/
def probabilityTable (probability : ℚ) (MaxLevel : Nat) : List ℚ :=
  (List.range MaxLevel).map (fun i => probability ^ i)

/-- Change the promotion probability for future inserts (`SetProbability`). -/
def SkipList.SetProbability (s : SkipList V) (newProbability : ℚ) : SkipList V :=
  { s with probability := newProbability,
           probTable := probabilityTable newProbability s.maxLevel }

/-- The `for level < maxLevel && r < probTable[level]` loop of `randLevel`. -/
def randLevelLoop (maxLevel : Nat) (probTable : List ℚ) (r : ℚ) (level : Nat) : Nat :=
  if h : level < maxLevel ∧ r < probTable.getD level 0 then
    randLevelLoop maxLevel probTable r (level + 1)
  else level
termination_by maxLevel - level
decreasing_by exact Nat.sub_lt_sub_left h.1 (Nat.lt_succ_self level)

/-- Height generation (`randLevel`): `r` models
`float64(list.randSource.Int63()) / (1 << 63)`, a uniform draw in `[0,1)`. -/
def SkipList.randLevel (s : SkipList V) (r : ℚ) : Nat :=
  randLevelLoop s.maxLevel s.probTable r 1

/-- Default height bound (`DefaultMaxLevel`). -/
def DefaultMaxLevel : Int := 18

/-- Default promotion probability, modeling the `float64` constant `1 / math.E`
(a rational stands in for the IEEE-754 double; no claim depends on its value). -/
def DefaultProbability : ℚ := 367879441171442321 / 1000000000000000000

/-- Constructor (`NewWithMaxLevel`).  `none` models the panic
"maxLevel for a SkipList must be a positive integer <= 64". -/
def NewWithMaxLevel (maxLevel : Int) : Option (SkipList V) :=
  if maxLevel < 1 ∨ maxLevel > 64 then none
  else some
    { next := List.replicate maxLevel.toNat none
      maxLevel := maxLevel.toNat
      length := 0
      probability := DefaultProbability
      probTable := probabilityTable DefaultProbability maxLevel.toNat
      prevNodesCache := List.replicate maxLevel.toNat none
      store := [] }

/-- Constructor with defaults (`New`). -/
def New : Option (SkipList V) := NewWithMaxLevel DefaultMaxLevel

/-- In-order walk following `Element.Next` from a given starting pointer (fueled;
`s.store.length` is always enough fuel for reachable states). -/
def SkipList.fromFront (s : SkipList V) : Nat → Option Nat → List Nat
  | 0, _ => []
  | _ + 1, none => []
  | fuel + 1, some nid => nid :: s.fromFront fuel ((s.store.get? nid).bind Element.Next)

/-- The full in-order walk: start at `Front()`, follow `.Next()` to the end. -/
def SkipList.toList (s : SkipList V) : List Nat :=
  s.fromFront s.store.length s.Front

/-- The abstract level-`i` chain determined by the live list `l`: the members of
`l` whose height exceeds `i`. -/
def chainAt (s : SkipList V) (l : List Nat) (i : Nat) : List Nat :=
  l.filter (fun n => decide (i < s.heightAt n))

/-- Boolean "key strictly below `k`" test. -/
def ltKey (s : SkipList V) (k : Int) (n : Nat) : Bool := decide (s.keyAt n < k)

/-- The rightmost position in the level-`i` chain whose key is strictly less than
`k` (the header when there is none): folding a "keep the last" step over the
candidates computes exactly that. -/
def rightmostBelow (s : SkipList V) (l : List Nat) (i : Nat) (k : Int) : Ptr :=
  ((chainAt s l i).filter (ltKey s k)).foldl (fun _ n => Ptr.node n) Ptr.head

/-- A legal starting position for the walk at level `i`: the header, or a chain
member strictly before `k`. -/
def validStart (s : SkipList V) (l : List Nat) (i : Nat) (k : Int) (p : Ptr) : Prop :=
  p = Ptr.head ∨ ∃ m, p = Ptr.node m ∧ m ∈ chainAt s l i ∧ s.keyAt m < k

/-- The level-`i` links starting at position `p` spell out exactly the id list `c`. -/
def encodesFrom (s : SkipList V) (i : Nat) : Ptr → List Nat → Prop
  | p, [] => s.ptrNext p i = none
  | p, n :: rest => s.ptrNext p i = some n ∧ encodesFrom s i (.node n) rest

instance encodesFrom.instDecidable (s : SkipList V) (i : Nat) :
    (p : Ptr) → (c : List Nat) → Decidable (encodesFrom s i p c)
  | _, [] => by unfold encodesFrom; infer_instance
  | p, n :: rest => by
    unfold encodesFrom
    exact @instDecidableAnd _ _ _ (encodesFrom.instDecidable s i (.node n) rest)

/-- A write of `q.next[i]` is within bounds. -/
def writeOK (s : SkipList V) (q : Ptr) (i : Nat) : Prop :=
  match q with
  | .head => i < s.next.length
  | .node n => ∃ e, s.store.get? n = some e ∧ i < e.next.length

instance writeOK.instDecidable (s : SkipList V) (q : Ptr) (i : Nat) :
    Decidable (writeOK s q i) :=
  match q with
  | .head => by unfold writeOK; infer_instance
  | .node n => by
    unfold writeOK
    exact match h : s.store.get? n with
    | some e =>
      decidable_of_iff (i < e.next.length)
        ⟨fun hi => ⟨e, h, hi⟩,
         fun ⟨e', he', hi⟩ => by rw [h] at he'; cases he'; exact hi⟩
    | none => isFalse (fun ⟨e', he', _⟩ => by rw [h] at he'; cases he')

/-- The structural invariant: `l` lists the live node ids in key order, and at
every level `i` the pointer graph spells out exactly the sub-chain of `l` of the
nodes with height above `i`. -/
@[mk_iff]
structure WFwith (s : SkipList V) (l : List Nat) : Prop where
  header_len : s.next.length = s.maxLevel
  maxLevel_pos : 1 ≤ s.maxLevel
  probTable_len : s.probTable.length = s.maxLevel
  valid : ∀ nid ∈ l, nid < s.store.length
  height_pos : ∀ nid ∈ l, 1 ≤ s.heightAt nid
  height_le : ∀ nid ∈ l, s.heightAt nid ≤ s.maxLevel
  sorted : l.Pairwise (s.keyAt · < s.keyAt ·)
  links : ∀ i < s.maxLevel, encodesFrom s i .head (chainAt s l i)
  len_eq : s.length = (l.length : Int)

instance WFwith.instDecidable (s : SkipList V) (l : List Nat) : Decidable (WFwith s l) :=
  decidable_of_iff _ (wFwith_iff s l).symm

/-- States reachable from a freshly constructed list by `Set` (with any oracle
height in `[1, maxLevel]`), `Remove` and `SetProbability`. -/
inductive Reachable : SkipList V → Prop where
  | fresh (m : Int) (s : SkipList V) : NewWithMaxLevel m = some s → Reachable s
  | set (s : SkipList V) (k : Int) (v : V) (lvl : Nat) :
      Reachable s → 1 ≤ lvl → lvl ≤ s.maxLevel → Reachable (s.Set k v lvl).1
  | remove (s : SkipList V) (k : Int) : Reachable s → Reachable (s.Remove k).1
  | setProb (s : SkipList V) (p : ℚ) : Reachable s → Reachable (s.SetProbability p)

/-- A small concrete two-entry list (keys 2 and 5, maxLevel 2) used to instantiate
the theorems below at a concrete input. -/
def wList : SkipList String :=
  ⟨[some 1, some 1], 2, 2, DefaultProbability, probabilityTable DefaultProbability 2,
    [none, none], [⟨[none], 5, "a"⟩, ⟨[some 0, none], 2, "b"⟩]⟩

/-! Frame lemmas: how each elementary state transformer affects the accessors. -/

variable {s : SkipList V}

@[simp]
theorem setCache_ptrNext (c : List (Option Ptr)) (p : Ptr) (i : Nat) :
    (s.setCache c).ptrNext p i = s.ptrNext p i := rfl

@[simp]
theorem setCache_keyAt (c : List (Option Ptr)) (n : Nat) :
    (s.setCache c).keyAt n = s.keyAt n := rfl

@[simp]
theorem setCache_heightAt (c : List (Option Ptr)) (n : Nat) :
    (s.setCache c).heightAt n = s.heightAt n := rfl

@[simp]
theorem setCache_valueAt (c : List (Option Ptr)) (n : Nat) :
    (s.setCache c).valueAt n = s.valueAt n := rfl

@[simp]
theorem setCache_store (c : List (Option Ptr)) : (s.setCache c).store = s.store := rfl

@[simp]
theorem setCache_next (c : List (Option Ptr)) : (s.setCache c).next = s.next := rfl

@[simp]
theorem setCache_maxLevel (c : List (Option Ptr)) : (s.setCache c).maxLevel = s.maxLevel := rfl

@[simp]
theorem setCache_length (c : List (Option Ptr)) : (s.setCache c).length = s.length := rfl

@[simp]
theorem setCache_probTable (c : List (Option Ptr)) :
    (s.setCache c).probTable = s.probTable := rfl

@[simp]
theorem setLen_ptrNext (x : Int) (p : Ptr) (i : Nat) :
    (s.setLen x).ptrNext p i = s.ptrNext p i := rfl

@[simp]
theorem setLen_keyAt (x : Int) (n : Nat) : (s.setLen x).keyAt n = s.keyAt n := rfl

@[simp]
theorem setLen_heightAt (x : Int) (n : Nat) : (s.setLen x).heightAt n = s.heightAt n := rfl

@[simp]
theorem setLen_valueAt (x : Int) (n : Nat) : (s.setLen x).valueAt n = s.valueAt n := rfl

@[simp]
theorem setLen_store (x : Int) : (s.setLen x).store = s.store := rfl

@[simp]
theorem setLen_next (x : Int) : (s.setLen x).next = s.next := rfl

@[simp]
theorem setLen_maxLevel (x : Int) : (s.setLen x).maxLevel = s.maxLevel := rfl

@[simp]
theorem setLen_length (x : Int) : (s.setLen x).length = x := rfl

@[simp]
theorem setLen_probTable (x : Int) : (s.setLen x).probTable = s.probTable := rfl

@[simp]
theorem writePtr_maxLevel (q : Ptr) (i : Nat) (v : Option Nat) :
    (s.writePtr q i v).maxLevel = s.maxLevel := by
  cases q with
  | head => rfl
  | node n => unfold SkipList.writePtr; dsimp only; cases s.store.get? n <;> rfl

@[simp]
theorem writePtr_length (q : Ptr) (i : Nat) (v : Option Nat) :
    (s.writePtr q i v).length = s.length := by
  cases q with
  | head => rfl
  | node n => unfold SkipList.writePtr; dsimp only; cases s.store.get? n <;> rfl

@[simp]
theorem writePtr_probTable (q : Ptr) (i : Nat) (v : Option Nat) :
    (s.writePtr q i v).probTable = s.probTable := by
  cases q with
  | head => rfl
  | node n => unfold SkipList.writePtr; dsimp only; cases s.store.get? n <;> rfl

@[simp]
theorem writePtr_next_length (q : Ptr) (i : Nat) (v : Option Nat) :
    (s.writePtr q i v).next.length = s.next.length := by
  cases q with
  | head => simp [SkipList.writePtr]
  | node n => unfold SkipList.writePtr; dsimp only; cases s.store.get? n <;> rfl

@[simp]
theorem writePtr_store_length (q : Ptr) (i : Nat) (v : Option Nat) :
    (s.writePtr q i v).store.length = s.store.length := by
  cases q with
  | head => rfl
  | node n =>
    unfold SkipList.writePtr
    dsimp only
    cases s.store.get? n with
    | none => rfl
    | some e => simp

theorem writePtr_store_get? (q : Ptr) (i : Nat) (v : Option Nat) (n : Nat) :
    (s.writePtr q i v).store.get? n = s.store.get? n ∨
    ∃ e, s.store.get? n = some e ∧
      (s.writePtr q i v).store.get? n = some { e with next := e.next.set i v } := by
  cases q with
  | head => exact Or.inl rfl
  | node m =>
    unfold SkipList.writePtr
    dsimp only
    cases h : s.store.get? m with
    | none => exact Or.inl rfl
    | some e =>
      by_cases hnm : n = m
      · subst hnm
        obtain ⟨hm, -⟩ := List.get?_eq_some.mp h
        exact Or.inr ⟨e, h, by rw [List.get?_set_eq_of_lt _ hm]⟩
      · exact Or.inl (List.get?_set_ne _ _ (Ne.symm hnm))

@[simp]
theorem writePtr_keyAt (q : Ptr) (i : Nat) (v : Option Nat) (n : Nat) :
    (s.writePtr q i v).keyAt n = s.keyAt n := by
  unfold SkipList.keyAt
  rcases writePtr_store_get? (s := s) q i v n with h | ⟨e, he, h⟩
  · rw [h]
  · rw [h, he]

@[simp]
theorem writePtr_heightAt (q : Ptr) (i : Nat) (v : Option Nat) (n : Nat) :
    (s.writePtr q i v).heightAt n = s.heightAt n := by
  unfold SkipList.heightAt
  rcases writePtr_store_get? (s := s) q i v n with h | ⟨e, he, h⟩
  · rw [h]
  · rw [h, he]; simp

@[simp]
theorem writePtr_valueAt (q : Ptr) (i : Nat) (v : Option Nat) (n : Nat) :
    (s.writePtr q i v).valueAt n = s.valueAt n := by
  unfold SkipList.valueAt
  rcases writePtr_store_get? (s := s) q i v n with h | ⟨e, he, h⟩
  · rw [h]
  · rw [h, he]; rfl

theorem writePtr_next_of_node (m : Nat) (j : Nat) (v : Option Nat) :
    (s.writePtr (.node m) j v).next = s.next := by
  unfold SkipList.writePtr; dsimp only; cases s.store.get? m <;> rfl

theorem writePtr_ptrNext_level_ne {i j : Nat} (hij : i ≠ j) (q p : Ptr) (v : Option Nat) :
    (s.writePtr q j v).ptrNext p i = s.ptrNext p i := by
  cases p with
  | head =>
    cases q with
    | head =>
      unfold SkipList.ptrNext SkipList.writePtr
      dsimp only
      rw [List.getD_eq_get?, List.getD_eq_get?, List.get?_set_ne _ _ (Ne.symm hij)]
    | node m => unfold SkipList.ptrNext; dsimp only; rw [writePtr_next_of_node]
  | node n =>
    unfold SkipList.ptrNext
    dsimp only
    rcases writePtr_store_get? (s := s) q j v n with h | ⟨e, he, h⟩
    · rw [h]
    · rw [h, he]
      dsimp only
      rw [List.getD_eq_get?, List.getD_eq_get?, List.get?_set_ne _ _ (Ne.symm hij)]

theorem writePtr_ptrNext_ptr_ne {p q : Ptr} (hpq : p ≠ q) (j : Nat) (v : Option Nat)
    (i : Nat) : (s.writePtr q j v).ptrNext p i = s.ptrNext p i := by
  cases p with
  | head =>
    cases q with
    | head => exact absurd rfl hpq
    | node m => unfold SkipList.ptrNext; dsimp only; rw [writePtr_next_of_node]
  | node n =>
    cases q with
    | head => rfl
    | node m =>
      have hnm : n ≠ m := by rintro rfl; exact hpq rfl
      unfold SkipList.ptrNext SkipList.writePtr
      dsimp only
      cases h : s.store.get? m with
      | none => rfl
      | some e => dsimp only; rw [List.get?_set_ne _ _ (Ne.symm hnm)]

theorem writePtr_ptrNext_eq {q : Ptr} {j : Nat} (hok : writeOK s q j) (v : Option Nat) :
    (s.writePtr q j v).ptrNext q j = v := by
  cases q with
  | head =>
    unfold writeOK at hok
    unfold SkipList.ptrNext SkipList.writePtr
    dsimp only
    rw [List.getD_eq_get?, List.get?_set_eq_of_lt _ hok]
    rfl
  | node m =>
    obtain ⟨e, he, hj⟩ := hok
    unfold SkipList.ptrNext SkipList.writePtr
    dsimp only
    rw [he]
    dsimp only
    obtain ⟨hm, -⟩ := List.get?_eq_some.mp he
    rw [List.get?_set_eq_of_lt _ hm]
    dsimp only
    rw [List.getD_eq_get?, List.get?_set_eq_of_lt _ hj]
    rfl

theorem writePtr_writeOK (q' : Ptr) (j : Nat) (v : Option Nat) (q : Ptr) (i : Nat) :
    writeOK (s.writePtr q' j v) q i ↔ writeOK s q i := by
  cases q with
  | head => unfold writeOK; rw [writePtr_next_length]
  | node n =>
    unfold writeOK
    dsimp only
    rcases writePtr_store_get? (s := s) q' j v n with h | ⟨e, he, h⟩
    · rw [h]
    · rw [h, he]; simp

@[simp]
theorem pushElem_next (e : Element V) : (s.pushElem e).next = s.next := rfl

@[simp]
theorem pushElem_maxLevel (e : Element V) : (s.pushElem e).maxLevel = s.maxLevel := rfl

@[simp]
theorem pushElem_length (e : Element V) : (s.pushElem e).length = s.length := rfl

@[simp]
theorem pushElem_probTable (e : Element V) : (s.pushElem e).probTable = s.probTable := rfl

@[simp]
theorem pushElem_store_length (e : Element V) :
    (s.pushElem e).store.length = s.store.length + 1 := by
  simp [SkipList.pushElem]

theorem pushElem_store_get?_old (e : Element V) {n : Nat} (h : n < s.store.length) :
    (s.pushElem e).store.get? n = s.store.get? n := by
  unfold SkipList.pushElem
  exact List.get?_append h

theorem pushElem_store_get?_new (e : Element V) :
    (s.pushElem e).store.get? s.store.length = some e := by
  unfold SkipList.pushElem
  exact List.get?_concat_length s.store e

theorem pushElem_keyAt_old (e : Element V) {n : Nat} (h : n < s.store.length) :
    (s.pushElem e).keyAt n = s.keyAt n := by
  unfold SkipList.keyAt
  rw [pushElem_store_get?_old e h]

theorem pushElem_store_get?_hi (e : Element V) {n : Nat} (h : s.store.length < n) :
    (s.pushElem e).store.get? n = none := by
  unfold SkipList.pushElem
  dsimp only
  rw [List.get?_eq_none, List.length_append]
  simp
  omega

theorem pushElem_keyAt_new (e : Element V) :
    (s.pushElem e).keyAt s.store.length = e.key := by
  unfold SkipList.keyAt
  rw [pushElem_store_get?_new e]

theorem pushElem_heightAt_old (e : Element V) {n : Nat} (h : n < s.store.length) :
    (s.pushElem e).heightAt n = s.heightAt n := by
  unfold SkipList.heightAt
  rw [pushElem_store_get?_old e h]

theorem pushElem_heightAt_new (e : Element V) :
    (s.pushElem e).heightAt s.store.length = e.next.length := by
  unfold SkipList.heightAt
  rw [pushElem_store_get?_new e]

theorem pushElem_valueAt_old (e : Element V) {n : Nat} (h : n < s.store.length) :
    (s.pushElem e).valueAt n = s.valueAt n := by
  unfold SkipList.valueAt
  rw [pushElem_store_get?_old e h]

theorem pushElem_valueAt_new (e : Element V) :
    (s.pushElem e).valueAt s.store.length = some e.value := by
  unfold SkipList.valueAt
  rw [pushElem_store_get?_new e]
  rfl

theorem pushElem_ptrNext_head (e : Element V) (i : Nat) :
    (s.pushElem e).ptrNext .head i = s.ptrNext .head i := rfl

theorem pushElem_ptrNext_old (e : Element V) {n : Nat} (h : n < s.store.length) (i : Nat) :
    (s.pushElem e).ptrNext (.node n) i = s.ptrNext (.node n) i := by
  unfold SkipList.ptrNext
  dsimp only
  rw [pushElem_store_get?_old e h]

theorem pushElem_ptrNext_new (e : Element V) (i : Nat) :
    (s.pushElem e).ptrNext (.node s.store.length) i = e.next.getD i none := by
  unfold SkipList.ptrNext
  dsimp only
  rw [pushElem_store_get?_new e]

theorem pushElem_writeOK_old (e : Element V) {q : Ptr}
    (hq : q = Ptr.head ∨ ∃ n, q = Ptr.node n ∧ n < s.store.length) (i : Nat) :
    writeOK (s.pushElem e) q i ↔ writeOK s q i := by
  rcases hq with rfl | ⟨n, rfl, hn⟩
  · unfold writeOK; rfl
  · unfold writeOK
    dsimp only
    rw [pushElem_store_get?_old e hn]

theorem pushElem_writeOK_new (e : Element V) (i : Nat) (hi : i < e.next.length) :
    writeOK (s.pushElem e) (Ptr.node s.store.length) i := by
  unfold writeOK
  exact ⟨e, pushElem_store_get?_new e, hi⟩

theorem setValue_store_get? (m : Nat) (v : V) (n : Nat) :
    (s.setValue m v).store.get? n = s.store.get? n ∨
    ∃ e, s.store.get? n = some e ∧ n = m ∧
      (s.setValue m v).store.get? n = some { e with value := v } := by
  unfold SkipList.setValue
  cases h : s.store.get? m with
  | none => exact Or.inl rfl
  | some e =>
    by_cases hnm : n = m
    · subst hnm
      obtain ⟨hm, -⟩ := List.get?_eq_some.mp h
      exact Or.inr ⟨e, h, rfl, by rw [List.get?_set_eq_of_lt _ hm]⟩
    · exact Or.inl (List.get?_set_ne _ _ (Ne.symm hnm))

@[simp]
theorem setValue_keyAt (m : Nat) (v : V) (n : Nat) :
    (s.setValue m v).keyAt n = s.keyAt n := by
  unfold SkipList.keyAt
  rcases setValue_store_get? (s := s) m v n with h | ⟨e, he, -, h⟩
  · rw [h]
  · rw [h, he]

@[simp]
theorem setValue_heightAt (m : Nat) (v : V) (n : Nat) :
    (s.setValue m v).heightAt n = s.heightAt n := by
  unfold SkipList.heightAt
  rcases setValue_store_get? (s := s) m v n with h | ⟨e, he, -, h⟩
  · rw [h]
  · rw [h, he]

@[simp]
theorem setValue_ptrNext (m : Nat) (v : V) (p : Ptr) (i : Nat) :
    (s.setValue m v).ptrNext p i = s.ptrNext p i := by
  cases p with
  | head =>
    unfold SkipList.ptrNext SkipList.setValue
    dsimp only
    cases s.store.get? m <;> rfl
  | node n =>
    unfold SkipList.ptrNext
    dsimp only
    rcases setValue_store_get? (s := s) m v n with h | ⟨e, he, -, h⟩
    · rw [h]
    · rw [h, he]

@[simp]
theorem setValue_next (m : Nat) (v : V) : (s.setValue m v).next = s.next := by
  unfold SkipList.setValue; cases s.store.get? m <;> rfl

@[simp]
theorem setValue_maxLevel (m : Nat) (v : V) : (s.setValue m v).maxLevel = s.maxLevel := by
  unfold SkipList.setValue; cases s.store.get? m <;> rfl

@[simp]
theorem setValue_length (m : Nat) (v : V) : (s.setValue m v).length = s.length := by
  unfold SkipList.setValue; cases s.store.get? m <;> rfl

@[simp]
theorem setValue_probTable (m : Nat) (v : V) : (s.setValue m v).probTable = s.probTable := by
  unfold SkipList.setValue; cases s.store.get? m <;> rfl

@[simp]
theorem setValue_store_length (m : Nat) (v : V) :
    (s.setValue m v).store.length = s.store.length := by
  unfold SkipList.setValue
  cases s.store.get? m with
  | none => rfl
  | some e => simp

theorem setValue_valueAt_eq {m : Nat} (hm : m < s.store.length) (v : V) :
    (s.setValue m v).valueAt m = some v := by
  unfold SkipList.valueAt SkipList.setValue
  cases hg : s.store.get? m with
  | none => rw [List.get?_eq_none] at hg; omega
  | some e =>
    dsimp only
    rw [List.get?_set_eq_of_lt _ hm]
    rfl

theorem setValue_valueAt_ne (n : Nat) (v : V) {m : Nat} (hm : m ≠ n) :
    (s.setValue n v).valueAt m = s.valueAt m := by
  unfold SkipList.valueAt
  rcases setValue_store_get? (s := s) n v m with h | ⟨e, he, heq, h⟩
  · rw [h]
  · exact absurd heq hm

/-! Lemmas about `encodesFrom`, the replace-fold, and the level walk. -/

theorem encodesFrom_of_agree {s s' : SkipList V} {i : Nat} :
    ∀ {p : Ptr} {c : List Nat}, encodesFrom s i p c →
      s'.ptrNext p i = s.ptrNext p i →
      (∀ n ∈ c, s'.ptrNext (.node n) i = s.ptrNext (.node n) i) →
      encodesFrom s' i p c
  | p, [], h, hp, _ => by
    unfold encodesFrom at h ⊢
    rw [hp]
    exact h
  | p, n :: rest, h, hp, hc => by
    unfold encodesFrom at h ⊢
    exact ⟨by rw [hp]; exact h.1,
      encodesFrom_of_agree h.2 (hc n (List.mem_cons_self n rest))
        (fun m hm => hc m (List.mem_cons_of_mem _ hm))⟩

theorem encodesFrom_drop {s : SkipList V} {i : Nat} :
    ∀ {A : List Nat} {p : Ptr} {D : List Nat}, encodesFrom s i p (A ++ D) →
      encodesFrom s i (A.foldl (fun _ n => Ptr.node n) p) D
  | [], _, _, h => h
  | a :: A', p, D, h => by
    unfold encodesFrom at h
    rw [List.foldl_cons]
    exact encodesFrom_drop h.2

theorem encodesFrom_head? {s : SkipList V} {i : Nat} {p : Ptr} {D : List Nat}
    (h : encodesFrom s i p D) : s.ptrNext p i = D.head? := by
  cases D with
  | nil => exact h
  | cons d D' => exact h.1

theorem foldl_node_mem :
    ∀ (A : List Nat) (p : Ptr), A.foldl (fun _ n => Ptr.node n) p ∈ p :: A.map Ptr.node
  | [], p => List.mem_singleton.mpr rfl
  | a :: A', p => by
    rw [List.foldl_cons]
    simpa using List.mem_cons_of_mem p (foldl_node_mem A' (Ptr.node a))

theorem foldl_node_concat (A : List Nat) (m : Nat) (p : Ptr) :
    (A ++ [m]).foldl (fun _ n => Ptr.node n) p = Ptr.node m := by
  rw [List.foldl_append]
  rfl

theorem walkLevel_succ (s : SkipList V) (k : Int) (i fuel : Nat) (p : Ptr) :
    s.walkLevel k i (fuel + 1) p =
      match s.ptrNext p i with
      | none => p
      | some nid => if s.keyAt nid < k then s.walkLevel k i fuel (.node nid) else p := rfl

theorem walkLevel_spec {s : SkipList V} {k : Int} {i : Nat} {c : List Nat} :
    ∀ {p : Ptr} {fuel : Nat}, encodesFrom s i p c → c.length ≤ fuel →
      s.walkLevel k i fuel p = (c.takeWhile (ltKey s k)).foldl (fun _ n => Ptr.node n) p ∧
      encodesFrom s i (s.walkLevel k i fuel p) (c.dropWhile (ltKey s k)) := by
  induction c with
  | nil =>
    intro p fuel henc _
    have hnone : s.ptrNext p i = none := henc
    have hw : s.walkLevel k i fuel p = p := by
      cases fuel with
      | zero => rfl
      | succ f => rw [walkLevel_succ, hnone]
    rw [hw]
    exact ⟨rfl, henc⟩
  | cons a rest ih =>
    intro p fuel henc hf
    have h1 : s.ptrNext p i = some a := henc.1
    have h2 : encodesFrom s i (.node a) rest := henc.2
    cases fuel with
    | zero => simp at hf
    | succ f =>
      by_cases hlt : s.keyAt a < k
      · have hb : ltKey s k a = true := by simp [ltKey, hlt]
        have hw : s.walkLevel k i (f + 1) p = s.walkLevel k i f (.node a) := by
          rw [walkLevel_succ, h1]
          dsimp only
          rw [if_pos hlt]
        have trec := @ih (.node a) f h2 (by simp at hf; omega)
        rw [hw, List.takeWhile_cons_of_pos hb, List.dropWhile_cons_of_pos hb]
        rw [List.foldl_cons]
        exact trec
      · have hb : ¬ ltKey s k a = true := by simp [ltKey, hlt]
        have hw : s.walkLevel k i (f + 1) p = p := by
          rw [walkLevel_succ, h1]
          dsimp only
          rw [if_neg hlt]
        rw [hw, List.takeWhile_cons_of_neg hb, List.dropWhile_cons_of_neg hb]
        exact ⟨rfl, henc⟩

/-! Sorted-chain helpers and the per-level rightmost-predecessor lemma. -/

theorem filter_eq_takeWhile_sorted {s : SkipList V} {k : Int} :
    ∀ {c : List Nat}, c.Pairwise (s.keyAt · < s.keyAt ·) →
      c.filter (ltKey s k) = c.takeWhile (ltKey s k) := by
  intro c
  induction c with
  | nil => intro _; rfl
  | cons a rest ih =>
    intro hp
    rw [List.pairwise_cons] at hp
    by_cases ha : s.keyAt a < k
    · have hb : ltKey s k a = true := by simp [ltKey, ha]
      rw [List.filter_cons, List.takeWhile_cons_of_pos hb, hb]
      simpa using ih hp.2
    · have hb : ¬ ltKey s k a = true := by simp [ltKey, ha]
      rw [List.takeWhile_cons_of_neg hb, List.filter_cons]
      simp only [hb, if_false, ite_false, Bool.false_eq_true]
      rw [List.filter_eq_nil]
      intro b hb'
      have := hp.1 b hb'
      simp only [ltKey, decide_eq_true_eq]
      omega

theorem chainAt_sublist (s : SkipList V) (l : List Nat) (i : Nat) :
    List.Sublist (chainAt s l i) l := List.filter_sublist l

theorem mem_chainAt {s : SkipList V} {l : List Nat} {i n : Nat} :
    n ∈ chainAt s l i ↔ n ∈ l ∧ i < s.heightAt n := by
  simp [chainAt]

theorem chainAt_mem_mono {s : SkipList V} {l : List Nat} {i j : Nat} (hij : j ≤ i) {n : Nat}
    (h : n ∈ chainAt s l i) : n ∈ chainAt s l j := by
  rw [mem_chainAt] at h ⊢
  exact ⟨h.1, lt_of_le_of_lt hij h.2⟩

theorem chainAt_length_le (s : SkipList V) (l : List Nat) (i : Nat) :
    (chainAt s l i).length ≤ l.length := (chainAt_sublist s l i).length_le

theorem chainAt_pairwise {s : SkipList V} {l : List Nat}
    (h : l.Pairwise (s.keyAt · < s.keyAt ·)) (i : Nat) :
    (chainAt s l i).Pairwise (s.keyAt · < s.keyAt ·) := h.sublist (chainAt_sublist s l i)

theorem pairwise_nodup {s : SkipList V} {l : List Nat}
    (h : l.Pairwise (s.keyAt · < s.keyAt ·)) : l.Nodup :=
  h.imp (fun hab => by rintro rfl; omega)

theorem length_le_store {s : SkipList V} {l : List Nat}
    (hnd : l.Nodup) (hv : ∀ nid ∈ l, nid < s.store.length) :
    l.length ≤ s.store.length := by
  have h1 : l.toFinset ⊆ Finset.range s.store.length := by
    intro x hx
    simp only [List.mem_toFinset] at hx
    simpa using hv x hx
  have := Finset.card_le_card h1
  simpa [List.toFinset_card_of_nodup hnd] using this

theorem validStart_head (s : SkipList V) (l : List Nat) (i : Nat) (k : Int) :
    validStart s l i k Ptr.head := Or.inl rfl

theorem validStart_mono {s : SkipList V} {l : List Nat} {i j : Nat} (hij : j ≤ i) {k : Int}
    {p : Ptr} (h : validStart s l i k p) : validStart s l j k p := by
  rcases h with h | ⟨m, rfl, hm, hk⟩
  · exact Or.inl h
  · exact Or.inr ⟨m, rfl, chainAt_mem_mono hij hm, hk⟩

theorem validStart_rightmostBelow (s : SkipList V) (l : List Nat) (i : Nat) (k : Int) :
    validStart s l i k (rightmostBelow s l i k) := by
  unfold rightmostBelow
  rcases List.mem_cons.mp
      (foldl_node_mem ((chainAt s l i).filter (ltKey s k)) Ptr.head) with h | h
  · exact Or.inl h
  · rw [List.mem_map] at h
    obtain ⟨m, hm, he⟩ := h
    rw [List.mem_filter] at hm
    exact Or.inr ⟨m, he.symm, hm.1, by simpa [ltKey] using hm.2⟩

theorem takeWhile_append_all {P : Nat → Bool} :
    ∀ {X : List Nat}, (∀ a ∈ X, P a = true) → ∀ (Y : List Nat),
      (X ++ Y).takeWhile P = X ++ Y.takeWhile P := by
  intro X
  induction X with
  | nil => intro _ Y; rfl
  | cons a X' ih =>
    intro hX Y
    have ha : P a = true := hX a (List.mem_cons_self a X')
    rw [List.cons_append, List.takeWhile_cons_of_pos ha, List.cons_append,
      ih (fun b hb => hX b (List.mem_cons_of_mem _ hb)) Y]

theorem walk_to_rightmost {s : SkipList V} {l : List Nat} {i : Nat} {k : Int}
    (hsorted : l.Pairwise (s.keyAt · < s.keyAt ·))
    (hlinks : encodesFrom s i Ptr.head (chainAt s l i))
    {p : Ptr} (hp : validStart s l i k p) {fuel : Nat} (hfuel : l.length ≤ fuel) :
    s.walkLevel k i fuel p = rightmostBelow s l i k := by
  have hcp : (chainAt s l i).Pairwise (s.keyAt · < s.keyAt ·) := chainAt_pairwise hsorted i
  rcases hp with rfl | ⟨m, rfl, hm, hk⟩
  · have hspec := walkLevel_spec (k := k) hlinks
      (le_trans (chainAt_length_le s l i) hfuel)
    rw [hspec.1]
    unfold rightmostBelow
    rw [filter_eq_takeWhile_sorted hcp]
  · obtain ⟨pre, suf, hsplit⟩ := List.append_of_mem hm
    have hsuf_pw : suf.Pairwise (s.keyAt · < s.keyAt ·) := by
      refine hcp.sublist ?_
      rw [hsplit]
      exact List.Sublist.trans (List.sublist_cons_self m suf) (List.sublist_append_right pre _)
    have henc_m : encodesFrom s i (Ptr.node m) suf := by
      have henc0 : encodesFrom s i Ptr.head (pre ++ [m] ++ suf) := by
        rw [List.append_assoc, List.singleton_append, ← hsplit]
        exact hlinks
      have := encodesFrom_drop (A := pre ++ [m]) (p := Ptr.head) (D := suf) henc0
      rwa [foldl_node_concat] at this
    have hsuf_len : suf.length ≤ fuel := by
      have : suf.length ≤ (chainAt s l i).length := by
        rw [hsplit]
        simp
        omega
      exact le_trans (le_trans this (chainAt_length_le s l i)) hfuel
    have hspec := walkLevel_spec (k := k) henc_m hsuf_len
    rw [hspec.1]
    unfold rightmostBelow
    rw [filter_eq_takeWhile_sorted hcp, hsplit]
    have hmb : ltKey s k m = true := by simp [ltKey, hk]
    have hpre_all : ∀ b ∈ pre, ltKey s k b = true := by
      intro b hbmem
      have hblt : s.keyAt b < s.keyAt m := by
        have := hcp
        rw [hsplit, List.pairwise_append] at this
        exact this.2.2 b hbmem m (List.mem_cons_self m suf)
      simp only [ltKey, decide_eq_true_eq]
      omega
    rw [takeWhile_append_all hpre_all (m :: suf), List.takeWhile_cons_of_pos hmb,
      List.foldl_append, List.foldl_cons]

theorem getPrevAux_succ (s : SkipList V) (k : Int) (fuel n : Nat) (p : Ptr) :
    s.getPrevAux k fuel (n + 1) p =
      s.getPrevAux k fuel n (s.walkLevel k n fuel p) ++ [s.walkLevel k n fuel p] := rfl

theorem getPrevAux_length (s : SkipList V) (k : Int) (fuel : Nat) :
    ∀ (n : Nat) (p : Ptr), (s.getPrevAux k fuel n p).length = n := by
  intro n
  induction n with
  | zero => intro p; rfl
  | succ n ih =>
    intro p
    rw [getPrevAux_succ, List.length_append, ih]
    rfl

theorem getPrevAux_rightmost {s : SkipList V} {l : List Nat} {k : Int}
    (hsorted : l.Pairwise (s.keyAt · < s.keyAt ·))
    (hlinks : ∀ i < s.maxLevel, encodesFrom s i Ptr.head (chainAt s l i))
    {fuel : Nat} (hfuel : l.length ≤ fuel) :
    ∀ {n : Nat}, n ≤ s.maxLevel → ∀ {p : Ptr}, validStart s l n k p →
      s.getPrevAux k fuel n p = (List.range n).map (fun i => rightmostBelow s l i k) := by
  intro n
  induction n with
  | zero => intro _ p _; rfl
  | succ n ih =>
    intro hn p hp
    have hvs : validStart s l n k p := validStart_mono (Nat.le_succ n) hp
    have hw := walk_to_rightmost hsorted (hlinks n (Nat.lt_of_lt_of_le (Nat.lt_succ_self n) hn))
      hvs hfuel
    rw [getPrevAux_succ, hw,
      ih (Nat.le_of_succ_le hn) (validStart_rightmostBelow s l n k),
      List.range_succ, List.map_append]
    rfl

theorem getPrevElementNodes_eq {s : SkipList V} {l : List Nat} (hwf : WFwith s l) (k : Int) :
    s.getPrevElementNodes k = (List.range s.maxLevel).map (fun i => rightmostBelow s l i k) := by
  unfold SkipList.getPrevElementNodes
  exact getPrevAux_rightmost hwf.sorted hwf.links
    (length_le_store (pairwise_nodup hwf.sorted) hwf.valid) le_rfl
    (validStart_head s l s.maxLevel k)

theorem getPrevElementNodes_length (s : SkipList V) (k : Int) :
    (s.getPrevElementNodes k).length = s.maxLevel :=
  getPrevAux_length s k s.store.length s.maxLevel Ptr.head

theorem getD_map_range {f : Nat → Ptr} {n i : Nat} (h : i < n) (d : Ptr) :
    ((List.range n).map f).getD i d = f i := by
  rw [List.getD_eq_get?, List.get?_map, List.get?_range h]
  rfl

theorem getPrevElementNodes_getD {s : SkipList V} {l : List Nat} (hwf : WFwith s l) (k : Int)
    {i : Nat} (hi : i < s.maxLevel) :
    (s.getPrevElementNodes k).getD i Ptr.head = rightmostBelow s l i k := by
  rw [getPrevElementNodes_eq hwf k, getD_map_range hi]

theorem ptrNext_rightmostBelow {s : SkipList V} {l : List Nat} {k : Int} {i : Nat}
    (hsorted : l.Pairwise (s.keyAt · < s.keyAt ·))
    (hlinks_i : encodesFrom s i Ptr.head (chainAt s l i)) :
    s.ptrNext (rightmostBelow s l i k) i = ((chainAt s l i).dropWhile (ltKey s k)).head? := by
  have henc : encodesFrom s i Ptr.head
      ((chainAt s l i).takeWhile (ltKey s k) ++ (chainAt s l i).dropWhile (ltKey s k)) := by
    rw [List.takeWhile_append_dropWhile]
    exact hlinks_i
  have hdrop := encodesFrom_drop henc
  unfold rightmostBelow
  rw [filter_eq_takeWhile_sorted (chainAt_pairwise hsorted i)]
  exact encodesFrom_head? hdrop

theorem takeWhile_all_lt {s : SkipList V} {l : List Nat} {k : Int} {b : Nat}
    (h : b ∈ l.takeWhile (ltKey s k)) : s.keyAt b < k := by
  have := List.mem_takeWhile_imp h
  simpa [ltKey] using this

theorem sorted_dropWhile_ge {s : SkipList V} {l : List Nat} {k : Int}
    (hsorted : l.Pairwise (s.keyAt · < s.keyAt ·)) :
    ∀ b ∈ l.dropWhile (ltKey s k), k ≤ s.keyAt b := by
  intro b hb
  have hpw : (l.dropWhile (ltKey s k)).Pairwise (s.keyAt · < s.keyAt ·) :=
    hsorted.sublist (List.dropWhile_sublist _)
  cases hdw : l.dropWhile (ltKey s k) with
  | nil => rw [hdw] at hb; cases hb
  | cons d rest =>
    have hd : ¬ ltKey s k d = true := by
      have := List.head?_dropWhile_not (ltKey s k) l
      rw [hdw] at this
      simpa using this
    have hdge : k ≤ s.keyAt d := by
      simp only [ltKey, decide_eq_true_eq] at hd
      omega
    rw [hdw] at hb
    rcases List.mem_cons.mp hb with rfl | hbr
    · exact hdge
    · rw [hdw, List.pairwise_cons] at hpw
      have := hpw.1 b hbr
      omega

theorem mem_key_iff_dropWhile {s : SkipList V} {l : List Nat} {k : Int}
    (hsorted : l.Pairwise (s.keyAt · < s.keyAt ·)) :
    (∃ nid ∈ l, s.keyAt nid = k) ↔
      ∃ d, (l.dropWhile (ltKey s k)).head? = some d ∧ s.keyAt d = k := by
  constructor
  · rintro ⟨nid, hmem, hkey⟩
    rw [← List.takeWhile_append_dropWhile (p := ltKey s k) (l := l), List.mem_append] at hmem
    rcases hmem with hm | hm
    · exact absurd (takeWhile_all_lt hm) (by omega)
    · cases hdw : l.dropWhile (ltKey s k) with
      | nil => rw [hdw] at hm; cases hm
      | cons d rest =>
        refine ⟨d, rfl, ?_⟩
        have hdge : k ≤ s.keyAt d := by
          have := sorted_dropWhile_ge hsorted d (by rw [hdw]; exact List.mem_cons_self d rest)
          exact this
        rw [hdw] at hm
        rcases List.mem_cons.mp hm with rfl | hbr
        · omega
        · have hpw : (l.dropWhile (ltKey s k)).Pairwise (s.keyAt · < s.keyAt ·) :=
            hsorted.sublist (List.dropWhile_sublist _)
          rw [hdw, List.pairwise_cons] at hpw
          have := hpw.1 nid hbr
          omega
  · rintro ⟨d, hd, hkey⟩
    have hdm : d ∈ l.dropWhile (ltKey s k) := by
      cases hdw : l.dropWhile (ltKey s k) with
      | nil => rw [hdw] at hd; cases hd
      | cons x rest =>
        rw [hdw] at hd
        have hxd : x = d := by simpa using hd
        subst hxd
        exact List.mem_cons_self _ _
    exact ⟨d, (List.dropWhile_sublist _).mem hdm, hkey⟩

theorem chainAt_zero {s : SkipList V} {l : List Nat}
    (hpos : ∀ nid ∈ l, 1 ≤ s.heightAt nid) : chainAt s l 0 = l := by
  unfold chainAt
  rw [List.filter_eq_self]
  intro a ha
  have := hpos a ha
  simp only [decide_eq_true_eq]
  omega

theorem key_unique {s : SkipList V} {l : List Nat}
    (hsorted : l.Pairwise (s.keyAt · < s.keyAt ·)) :
    ∀ {a b : Nat}, a ∈ l → b ∈ l → s.keyAt a = s.keyAt b → a = b := by
  induction l with
  | nil => intro a b ha _ _; cases ha
  | cons x t ih =>
    intro a b ha hb hk
    rw [List.pairwise_cons] at hsorted
    rcases List.mem_cons.mp ha with rfl | ha' <;> rcases List.mem_cons.mp hb with rfl | hb'
    · rfl
    · have := hsorted.1 b hb'; omega
    · have := hsorted.1 a ha'; omega
    · exact ih hsorted.2 ha' hb' hk

theorem getLoop_one (s : SkipList V) (k : Int) (fuel : Nat) (p : Ptr) :
    s.getLoop k fuel 1 p = s.ptrNext (s.walkLevel k 0 fuel p) 0 := rfl

theorem getLoop_succ_succ (s : SkipList V) (k : Int) (fuel n : Nat) (p : Ptr) :
    s.getLoop k fuel (n + 2) p = s.getLoop k fuel (n + 1) (s.walkLevel k (n + 1) fuel p) := rfl

theorem getLoop_spec {s : SkipList V} {l : List Nat} {k : Int}
    (hsorted : l.Pairwise (s.keyAt · < s.keyAt ·))
    (hlinks : ∀ i < s.maxLevel, encodesFrom s i Ptr.head (chainAt s l i))
    {fuel : Nat} (hfuel : l.length ≤ fuel) :
    ∀ {n : Nat}, 1 ≤ n → n ≤ s.maxLevel → ∀ {p : Ptr}, validStart s l n k p →
      s.getLoop k fuel n p = s.ptrNext (rightmostBelow s l 0 k) 0 := by
  intro n
  induction n with
  | zero => intro h1 _ p _; exact absurd h1 (by omega)
  | succ n ih =>
    intro _ hn p hp
    cases n with
    | zero =>
      rw [getLoop_one,
        walk_to_rightmost hsorted (hlinks 0 (by omega)) (validStart_mono (by omega) hp) hfuel]
    | succ m =>
      rw [getLoop_succ_succ,
        walk_to_rightmost hsorted (hlinks (m + 1) (by omega)) (validStart_mono (by omega) hp)
          hfuel]
      exact ih (by omega) (by omega) (validStart_rightmostBelow s l (m + 1) k)

theorem Get_eq_candidate {s : SkipList V} {l : List Nat} (hwf : WFwith s l) (k : Int) :
    s.getLoop k s.store.length s.maxLevel Ptr.head = (l.dropWhile (ltKey s k)).head? := by
  have h := getLoop_spec hwf.sorted hwf.links
    (length_le_store (pairwise_nodup hwf.sorted) hwf.valid) hwf.maxLevel_pos le_rfl
    (validStart_head s l s.maxLevel k)
  rw [h, ptrNext_rightmostBelow hwf.sorted (hwf.links 0 hwf.maxLevel_pos),
    chainAt_zero hwf.height_pos]

theorem Get_spec_mem {s : SkipList V} {l : List Nat} (hwf : WFwith s l) {k : Int} {nid : Nat}
    (hmem : nid ∈ l) (hkey : s.keyAt nid = k) : s.Get k = some (.node nid) := by
  have hex : ∃ nid ∈ l, s.keyAt nid = k := ⟨nid, hmem, hkey⟩
  obtain ⟨d, hd, hdk⟩ := (mem_key_iff_dropWhile hwf.sorted).mp hex
  have hdm : d ∈ l := by
    have hdm' : d ∈ l.dropWhile (ltKey s k) := by
      cases hdw : l.dropWhile (ltKey s k) with
      | nil => rw [hdw] at hd; cases hd
      | cons x rest =>
        rw [hdw] at hd
        have hxd : x = d := by simpa using hd
        subst hxd
        exact List.mem_cons_self _ _
    exact (List.dropWhile_sublist _).mem hdm'
  have hnd : d = nid := key_unique hwf.sorted hdm hmem (by rw [hdk, hkey])
  subst hnd
  unfold SkipList.Get
  rw [Get_eq_candidate hwf, hd]
  dsimp only
  rw [if_pos hdk]

theorem Get_spec_absent {s : SkipList V} {l : List Nat} (hwf : WFwith s l) {k : Int}
    (habs : ∀ nid ∈ l, s.keyAt nid ≠ k) : s.Get k = none := by
  unfold SkipList.Get
  rw [Get_eq_candidate hwf]
  cases hdw : (l.dropWhile (ltKey s k)).head? with
  | none => rfl
  | some d =>
    dsimp only
    rw [if_neg]
    intro hdk
    have hdm : d ∈ l := by
      have hdm' : d ∈ l.dropWhile (ltKey s k) := by
        cases hdw2 : l.dropWhile (ltKey s k) with
        | nil => rw [hdw2] at hdw; cases hdw
        | cons x rest =>
          rw [hdw2] at hdw
          have hxd : x = d := by simpa using hdw
          subst hxd
          exact List.mem_cons_self _ _
      exact (List.dropWhile_sublist _).mem hdm'
    exact habs d hdm hdk

/-! Invariant transport along the cache-only and value-only state updates. -/

theorem WFwith_setCache {s : SkipList V} {l : List Nat} (hwf : WFwith s l)
    (c : List (Option Ptr)) : WFwith (s.setCache c) l := by
  refine ⟨?_, ?_, ?_, ?_, ?_, ?_, ?_, ?_, ?_⟩
  · simpa using hwf.header_len
  · simpa using hwf.maxLevel_pos
  · simpa using hwf.probTable_len
  · simpa using hwf.valid
  · simpa using hwf.height_pos
  · simpa using hwf.height_le
  · simpa using hwf.sorted
  · intro i hi
    have := hwf.links i (by simpa using hi)
    exact encodesFrom_of_agree this rfl (fun n _ => rfl)
  · simpa using hwf.len_eq

theorem chainAt_setValue (s : SkipList V) (l : List Nat) (m : Nat) (v : V) (i : Nat) :
    chainAt (s.setValue m v) l i = chainAt s l i := by
  unfold chainAt
  apply List.filter_congr
  intro n _
  rw [setValue_heightAt]

theorem WFwith_setValue {s : SkipList V} {l : List Nat} (hwf : WFwith s l) (m : Nat) (v : V) :
    WFwith (s.setValue m v) l := by
  refine ⟨?_, ?_, ?_, ?_, ?_, ?_, ?_, ?_, ?_⟩
  · simpa using hwf.header_len
  · simpa using hwf.maxLevel_pos
  · simpa using hwf.probTable_len
  · simpa using hwf.valid
  · simpa using hwf.height_pos
  · simpa using hwf.height_le
  · simpa using hwf.sorted
  · intro i hi
    rw [chainAt_setValue]
    exact encodesFrom_of_agree (hwf.links i (by simpa using hi))
      (setValue_ptrNext m v _ i) (fun n _ => setValue_ptrNext m v _ i)
  · simpa using hwf.len_eq

/-! Characterization of the sequential link-write loops of `Set` and `Remove`. -/

theorem writePtr_store_get?_ne {q : Ptr} {m : Nat} (hq : q ≠ .node m) (j : Nat)
    (v : Option Nat) : (s.writePtr q j v).store.get? m = s.store.get? m := by
  cases q with
  | head => rfl
  | node n =>
    unfold SkipList.writePtr
    dsimp only
    cases h : s.store.get? n with
    | none => rfl
    | some e =>
      dsimp only
      exact List.get?_set_ne _ _ (by rintro rfl; exact hq rfl)

theorem removeLinks_succ (prevs : List Ptr) (nid n : Nat) (s : SkipList V) :
    SkipList.removeLinks prevs nid (n + 1) s =
      (SkipList.removeLinks prevs nid n s).writePtr (prevs.getD n .head) n
        ((SkipList.removeLinks prevs nid n s).ptrNext (.node nid) n) := rfl

theorem removeLinks_keyAt (prevs : List Ptr) (nid : Nat) (s : SkipList V) :
    ∀ (n : Nat) (m : Nat), (SkipList.removeLinks prevs nid n s).keyAt m = s.keyAt m := by
  intro n
  induction n with
  | zero => intro m; rfl
  | succ n ih => intro m; rw [removeLinks_succ, writePtr_keyAt, ih]

theorem removeLinks_heightAt (prevs : List Ptr) (nid : Nat) (s : SkipList V) :
    ∀ (n : Nat) (m : Nat), (SkipList.removeLinks prevs nid n s).heightAt m = s.heightAt m := by
  intro n
  induction n with
  | zero => intro m; rfl
  | succ n ih => intro m; rw [removeLinks_succ, writePtr_heightAt, ih]

theorem removeLinks_valueAt (prevs : List Ptr) (nid : Nat) (s : SkipList V) :
    ∀ (n : Nat) (m : Nat), (SkipList.removeLinks prevs nid n s).valueAt m = s.valueAt m := by
  intro n
  induction n with
  | zero => intro m; rfl
  | succ n ih => intro m; rw [removeLinks_succ, writePtr_valueAt, ih]

theorem removeLinks_store_length (prevs : List Ptr) (nid : Nat) (s : SkipList V) :
    ∀ (n : Nat), (SkipList.removeLinks prevs nid n s).store.length = s.store.length := by
  intro n
  induction n with
  | zero => rfl
  | succ n ih => rw [removeLinks_succ, writePtr_store_length, ih]

theorem removeLinks_next_length (prevs : List Ptr) (nid : Nat) (s : SkipList V) :
    ∀ (n : Nat), (SkipList.removeLinks prevs nid n s).next.length = s.next.length := by
  intro n
  induction n with
  | zero => rfl
  | succ n ih => rw [removeLinks_succ, writePtr_next_length, ih]

theorem removeLinks_maxLevel (prevs : List Ptr) (nid : Nat) (s : SkipList V) :
    ∀ (n : Nat), (SkipList.removeLinks prevs nid n s).maxLevel = s.maxLevel := by
  intro n
  induction n with
  | zero => rfl
  | succ n ih => rw [removeLinks_succ, writePtr_maxLevel, ih]

theorem removeLinks_length (prevs : List Ptr) (nid : Nat) (s : SkipList V) :
    ∀ (n : Nat), (SkipList.removeLinks prevs nid n s).length = s.length := by
  intro n
  induction n with
  | zero => rfl
  | succ n ih => rw [removeLinks_succ, writePtr_length, ih]

theorem removeLinks_probTable (prevs : List Ptr) (nid : Nat) (s : SkipList V) :
    ∀ (n : Nat), (SkipList.removeLinks prevs nid n s).probTable = s.probTable := by
  intro n
  induction n with
  | zero => rfl
  | succ n ih => rw [removeLinks_succ, writePtr_probTable, ih]

theorem removeLinks_writeOK (prevs : List Ptr) (nid : Nat) (s : SkipList V) :
    ∀ (n : Nat) (q : Ptr) (i : Nat),
      writeOK (SkipList.removeLinks prevs nid n s) q i ↔ writeOK s q i := by
  intro n
  induction n with
  | zero => intro q i; rfl
  | succ n ih =>
    intro q i
    rw [removeLinks_succ, writePtr_writeOK, ih]

theorem removeLinks_store_get?_untouched (prevs : List Ptr) (nid : Nat) (s : SkipList V)
    {m : Nat} : ∀ (n : Nat), (∀ j < n, prevs.getD j .head ≠ .node m) →
      (SkipList.removeLinks prevs nid n s).store.get? m = s.store.get? m := by
  intro n
  induction n with
  | zero => intro _; rfl
  | succ n ih =>
    intro h
    rw [removeLinks_succ,
      writePtr_store_get?_ne (h n (Nat.lt_succ_self n)),
      ih (fun j hj => h j (Nat.lt_succ_of_lt hj))]

theorem removeLinks_ptrNext {prevs : List Ptr} {nid : Nat} {s : SkipList V} :
    ∀ (n : Nat), (∀ j < n, writeOK s (prevs.getD j .head) j) →
      ∀ (p : Ptr) (i : Nat),
        (SkipList.removeLinks prevs nid n s).ptrNext p i =
          if i < n ∧ p = prevs.getD i .head then s.ptrNext (.node nid) i
          else s.ptrNext p i := by
  intro n
  induction n with
  | zero =>
    intro _ p i
    rw [if_neg (by rintro ⟨h0, -⟩; omega)]
    rfl
  | succ n ih =>
    intro hok p i
    have hokn : ∀ j < n, writeOK s (prevs.getD j .head) j :=
      fun j hj => hok j (Nat.lt_succ_of_lt hj)
    have hval : (SkipList.removeLinks prevs nid n s).ptrNext (.node nid) n =
        s.ptrNext (.node nid) n := by
      rw [ih hokn]
      simp
    rw [removeLinks_succ]
    by_cases hi : i = n
    · subst hi
      by_cases hp : p = prevs.getD i .head
      · subst hp
        rw [hval, writePtr_ptrNext_eq ((removeLinks_writeOK prevs nid s i _ i).mpr
          (hok i (Nat.lt_succ_self i)))]
        rw [if_pos ⟨Nat.lt_succ_self i, rfl⟩]
      · rw [writePtr_ptrNext_ptr_ne hp, ih hokn]
        have hcond : ¬ (i < i ∧ p = prevs.getD i .head) := by
          rintro ⟨hii, -⟩; omega
        rw [if_neg hcond, if_neg (by rintro ⟨-, hpp⟩; exact hp hpp)]
    · rw [writePtr_ptrNext_level_ne hi, ih hokn]
      by_cases hin : i < n
      · by_cases hp : p = prevs.getD i .head
        · rw [if_pos ⟨hin, hp⟩, if_pos ⟨Nat.lt_succ_of_lt hin, hp⟩]
        · rw [if_neg (by rintro ⟨-, hpp⟩; exact hp hpp),
            if_neg (by rintro ⟨-, hpp⟩; exact hp hpp)]
      · have hin' : ¬ i < n + 1 := by omega
        rw [if_neg (by rintro ⟨hii, -⟩; exact hin hii),
          if_neg (by rintro ⟨hii, -⟩; exact hin' hii)]

theorem insertLinks_succ (prevs : List Ptr) (newId n : Nat) (s : SkipList V) :
    SkipList.insertLinks prevs newId (n + 1) s =
      ((SkipList.insertLinks prevs newId n s).writePtr (.node newId) n
          ((SkipList.insertLinks prevs newId n s).ptrNext (prevs.getD n .head) n)).writePtr
        (prevs.getD n .head) n (some newId) := rfl

theorem insertLinks_keyAt (prevs : List Ptr) (newId : Nat) (s : SkipList V) :
    ∀ (n : Nat) (m : Nat), (SkipList.insertLinks prevs newId n s).keyAt m = s.keyAt m := by
  intro n
  induction n with
  | zero => intro m; rfl
  | succ n ih => intro m; rw [insertLinks_succ, writePtr_keyAt, writePtr_keyAt, ih]

theorem insertLinks_heightAt (prevs : List Ptr) (newId : Nat) (s : SkipList V) :
    ∀ (n : Nat) (m : Nat), (SkipList.insertLinks prevs newId n s).heightAt m = s.heightAt m := by
  intro n
  induction n with
  | zero => intro m; rfl
  | succ n ih => intro m; rw [insertLinks_succ, writePtr_heightAt, writePtr_heightAt, ih]

theorem insertLinks_valueAt (prevs : List Ptr) (newId : Nat) (s : SkipList V) :
    ∀ (n : Nat) (m : Nat), (SkipList.insertLinks prevs newId n s).valueAt m = s.valueAt m := by
  intro n
  induction n with
  | zero => intro m; rfl
  | succ n ih => intro m; rw [insertLinks_succ, writePtr_valueAt, writePtr_valueAt, ih]

theorem insertLinks_store_length (prevs : List Ptr) (newId : Nat) (s : SkipList V) :
    ∀ (n : Nat), (SkipList.insertLinks prevs newId n s).store.length = s.store.length := by
  intro n
  induction n with
  | zero => rfl
  | succ n ih => rw [insertLinks_succ, writePtr_store_length, writePtr_store_length, ih]

theorem insertLinks_next_length (prevs : List Ptr) (newId : Nat) (s : SkipList V) :
    ∀ (n : Nat), (SkipList.insertLinks prevs newId n s).next.length = s.next.length := by
  intro n
  induction n with
  | zero => rfl
  | succ n ih => rw [insertLinks_succ, writePtr_next_length, writePtr_next_length, ih]

theorem insertLinks_maxLevel (prevs : List Ptr) (newId : Nat) (s : SkipList V) :
    ∀ (n : Nat), (SkipList.insertLinks prevs newId n s).maxLevel = s.maxLevel := by
  intro n
  induction n with
  | zero => rfl
  | succ n ih => rw [insertLinks_succ, writePtr_maxLevel, writePtr_maxLevel, ih]

theorem insertLinks_length (prevs : List Ptr) (newId : Nat) (s : SkipList V) :
    ∀ (n : Nat), (SkipList.insertLinks prevs newId n s).length = s.length := by
  intro n
  induction n with
  | zero => rfl
  | succ n ih => rw [insertLinks_succ, writePtr_length, writePtr_length, ih]

theorem insertLinks_probTable (prevs : List Ptr) (newId : Nat) (s : SkipList V) :
    ∀ (n : Nat), (SkipList.insertLinks prevs newId n s).probTable = s.probTable := by
  intro n
  induction n with
  | zero => rfl
  | succ n ih => rw [insertLinks_succ, writePtr_probTable, writePtr_probTable, ih]

theorem insertLinks_writeOK (prevs : List Ptr) (newId : Nat) (s : SkipList V) :
    ∀ (n : Nat) (q : Ptr) (i : Nat),
      writeOK (SkipList.insertLinks prevs newId n s) q i ↔ writeOK s q i := by
  intro n
  induction n with
  | zero => intro q i; rfl
  | succ n ih =>
    intro q i
    rw [insertLinks_succ, writePtr_writeOK, writePtr_writeOK, ih]

theorem insertLinks_ptrNext {prevs : List Ptr} {newId : Nat} {s : SkipList V} :
    ∀ (n : Nat), (∀ j < n, writeOK s (prevs.getD j .head) j) →
      (∀ j < n, writeOK s (.node newId) j) →
      (∀ j < n, prevs.getD j .head ≠ .node newId) →
      ∀ (p : Ptr) (i : Nat),
        (SkipList.insertLinks prevs newId n s).ptrNext p i =
          if i < n then
            (if p = prevs.getD i .head then some newId
             else if p = .node newId then s.ptrNext (prevs.getD i .head) i
             else s.ptrNext p i)
          else s.ptrNext p i := by
  intro n
  induction n with
  | zero =>
    intro _ _ _ p i
    rw [if_neg (by omega)]
    rfl
  | succ n ih =>
    intro hok hoknew hfresh p i
    have hokn : ∀ j < n, writeOK s (prevs.getD j .head) j :=
      fun j hj => hok j (Nat.lt_succ_of_lt hj)
    have hoknewn : ∀ j < n, writeOK s (.node newId) j :=
      fun j hj => hoknew j (Nat.lt_succ_of_lt hj)
    have hfreshn : ∀ j < n, prevs.getD j .head ≠ .node newId :=
      fun j hj => hfresh j (Nat.lt_succ_of_lt hj)
    have ihc := ih hokn hoknewn hfreshn
    have hval : (SkipList.insertLinks prevs newId n s).ptrNext (prevs.getD n .head) n =
        s.ptrNext (prevs.getD n .head) n := by
      rw [ihc]
      rw [if_neg (by omega)]
    rw [insertLinks_succ]
    by_cases hi : i = n
    · subst hi
      by_cases hp : p = prevs.getD i .head
      · subst hp
        rw [writePtr_ptrNext_eq ((writePtr_writeOK _ _ _ _ _).mpr
          ((insertLinks_writeOK prevs newId s i _ i).mpr (hok i (Nat.lt_succ_self i))))]
        rw [if_pos (Nat.lt_succ_self i), if_pos rfl]
      · rw [writePtr_ptrNext_ptr_ne hp]
        by_cases hpn : p = .node newId
        · subst hpn
          rw [writePtr_ptrNext_eq ((insertLinks_writeOK prevs newId s i _ i).mpr
            (hoknew i (Nat.lt_succ_self i))), hval]
          rw [if_pos (Nat.lt_succ_self i), if_neg hp, if_pos rfl]
        · rw [writePtr_ptrNext_ptr_ne hpn, ihc]
          rw [if_neg (by omega), if_pos (Nat.lt_succ_self i), if_neg hp, if_neg hpn]
    · rw [writePtr_ptrNext_level_ne hi, writePtr_ptrNext_level_ne hi, ihc]
      by_cases hin : i < n
      · rw [if_pos hin, if_pos (Nat.lt_succ_of_lt hin)]
      · rw [if_neg hin, if_neg (by omega)]

/-! Single-level chain surgery: unlinking a node, and splicing a new node in. -/

theorem encodes_unlink {s s' : SkipList V} {i : Nat} {m : Nat} {D : List Nat} :
    ∀ {A : List Nat} {p : Ptr},
      encodesFrom s i p (A ++ m :: D) →
      (p :: A.map Ptr.node).Nodup →
      s'.ptrNext (A.foldl (fun _ n => Ptr.node n) p) i = s.ptrNext (.node m) i →
      (∀ x ∈ p :: A.map Ptr.node, x ≠ A.foldl (fun _ n => Ptr.node n) p →
        s'.ptrNext x i = s.ptrNext x i) →
      (∀ n ∈ D, s'.ptrNext (.node n) i = s.ptrNext (.node n) i) →
      encodesFrom s' i p (A ++ D) := by
  intro A
  induction A with
  | nil =>
    intro p henc _ hq _ hD
    rw [List.foldl_nil] at hq
    have h1 : s.ptrNext p i = some m := henc.1
    have h2 : encodesFrom s i (.node m) D := henc.2
    cases D with
    | nil =>
      have hm : s.ptrNext (.node m) i = none := h2
      show s'.ptrNext p i = none
      rw [hq, hm]
    | cons d D' =>
      refine ⟨?_, ?_⟩
      · rw [hq, h2.1]
      · exact encodesFrom_of_agree h2.2 (hD d (List.mem_cons_self d D'))
          (fun x hx => hD x (List.mem_cons_of_mem _ hx))
  | cons a A' ih =>
    intro p henc hnd hq hA hD
    have h1 : s.ptrNext p i = some a := henc.1
    have h2 : encodesFrom s i (.node a) (A' ++ m :: D) := henc.2
    have hqmem : A'.foldl (fun _ n => Ptr.node n) (Ptr.node a) ∈
        Ptr.node a :: A'.map Ptr.node := foldl_node_mem A' (Ptr.node a)
    have hfold : (a :: A').foldl (fun _ n => Ptr.node n) p =
        A'.foldl (fun _ n => Ptr.node n) (Ptr.node a) := List.foldl_cons _ _
    have hpq : p ≠ (a :: A').foldl (fun _ n => Ptr.node n) p := by
      rw [hfold]
      intro hcontra
      rw [List.nodup_cons] at hnd
      apply hnd.1
      rw [hcontra]
      simpa using hqmem
    refine ⟨?_, ?_⟩
    · rw [hA p (List.mem_cons_self _ _) hpq, h1]
    · refine ih h2 ?_ ?_ ?_ hD
      · have := hnd.sublist (List.sublist_cons_self p _)
        simpa using this
      · rw [← hfold]
        exact hq
      · intro x hx hxq
        refine hA x (List.mem_cons_of_mem p ?_) (by rw [hfold]; exact hxq)
        exact hx

theorem encodes_relink {s s' : SkipList V} {i : Nat} {w : Nat} {D : List Nat} :
    ∀ {A : List Nat} {p : Ptr},
      encodesFrom s i p (A ++ D) →
      (p :: A.map Ptr.node).Nodup →
      s'.ptrNext (A.foldl (fun _ n => Ptr.node n) p) i = some w →
      s'.ptrNext (.node w) i = D.head? →
      (∀ x ∈ p :: A.map Ptr.node, x ≠ A.foldl (fun _ n => Ptr.node n) p →
        s'.ptrNext x i = s.ptrNext x i) →
      (∀ n ∈ D, s'.ptrNext (.node n) i = s.ptrNext (.node n) i) →
      encodesFrom s' i p (A ++ w :: D) := by
  intro A
  induction A with
  | nil =>
    intro p henc _ hq hw hA hD
    rw [List.foldl_nil] at hq
    refine ⟨hq, ?_⟩
    cases D with
    | nil => exact hw
    | cons d D' =>
      refine ⟨hw, ?_⟩
      exact encodesFrom_of_agree henc.2 (hD d (List.mem_cons_self d D'))
        (fun x hx => hD x (List.mem_cons_of_mem _ hx))
  | cons a A' ih =>
    intro p henc hnd hq hw hA hD
    have h1 : s.ptrNext p i = some a := henc.1
    have h2 : encodesFrom s i (.node a) (A' ++ D) := henc.2
    have hqmem : A'.foldl (fun _ n => Ptr.node n) (Ptr.node a) ∈
        Ptr.node a :: A'.map Ptr.node := foldl_node_mem A' (Ptr.node a)
    have hfold : (a :: A').foldl (fun _ n => Ptr.node n) p =
        A'.foldl (fun _ n => Ptr.node n) (Ptr.node a) := List.foldl_cons _ _
    have hpq : p ≠ (a :: A').foldl (fun _ n => Ptr.node n) p := by
      rw [hfold]
      intro hcontra
      rw [List.nodup_cons] at hnd
      apply hnd.1
      rw [hcontra]
      simpa using hqmem
    refine ⟨?_, ?_⟩
    · rw [hA p (List.mem_cons_self _ _) hpq, h1]
    · refine ih h2 ?_ ?_ hw ?_ hD
      · have := hnd.sublist (List.sublist_cons_self p _)
        simpa using this
      · rw [← hfold]
        exact hq
      · intro x hx hxq
        refine hA x (List.mem_cons_of_mem p ?_) (by rw [hfold]; exact hxq)
        exact hx

/-! Auxiliary facts for the operation specifications. -/

theorem getD_replicate_none (n i : Nat) :
    (List.replicate n (none : Option Nat)).getD i none = none := by
  rw [List.getD_eq_get?, List.get?_eq_getElem?, List.getElem?_replicate]
  split <;> rfl

theorem node_injective : Function.Injective Ptr.node := by
  intro a b h
  cases h
  rfl

theorem nodup_head_cons {A : List Nat} (hA : A.Nodup) : (Ptr.head :: A.map Ptr.node).Nodup := by
  rw [List.nodup_cons]
  refine ⟨?_, hA.map node_injective⟩
  rw [List.mem_map]
  rintro ⟨x, -, hx⟩
  cases hx

theorem dropWhile_append_all {P : Nat → Bool} :
    ∀ {X : List Nat}, (∀ a ∈ X, P a = true) → ∀ {Y : List Nat}, (∀ a ∈ Y, P a = false) →
      (X ++ Y).dropWhile P = Y := by
  intro X
  induction X with
  | nil =>
    intro _ Y hY
    cases Y with
    | nil => rfl
    | cons y Y' =>
      rw [List.nil_append, List.dropWhile_cons_of_neg]
      rw [hY y (List.mem_cons_self y Y')]
      exact Bool.false_ne_true
  | cons x X' ih =>
    intro hX Y hY
    rw [List.cons_append, List.dropWhile_cons_of_pos (hX x (List.mem_cons_self x X'))]
    exact ih (fun b hb => hX b (List.mem_cons_of_mem _ hb)) hY

theorem writeOK_rightmostBelow {s : SkipList V} {l : List Nat} (hwf : WFwith s l) (k : Int)
    {j : Nat} (hj : j < s.maxLevel) : writeOK s (rightmostBelow s l j k) j := by
  rcases validStart_rightmostBelow s l j k with h | ⟨m, hm, hmem, -⟩
  · rw [h]
    unfold writeOK
    rw [hwf.header_len]
    exact hj
  · rw [hm]
    unfold writeOK
    have hh : j < s.heightAt m := (mem_chainAt.mp hmem).2
    unfold SkipList.heightAt at hh
    cases hg : s.store.get? m with
    | none => rw [hg] at hh; simp at hh
    | some e =>
      rw [hg] at hh
      exact ⟨e, hg, by simpa using hh⟩

theorem rightmostBelow_cases (s : SkipList V) (l : List Nat) (j : Nat) (k : Int) :
    rightmostBelow s l j k = Ptr.head ∨
    ∃ m, rightmostBelow s l j k = Ptr.node m ∧ m ∈ l ∧ s.keyAt m < k := by
  rcases validStart_rightmostBelow s l j k with h | ⟨m, hm, hmem, hk⟩
  · exact Or.inl h
  · exact Or.inr ⟨m, hm, (mem_chainAt.mp hmem).1, hk⟩

theorem Set_candidate {s : SkipList V} {l : List Nat} (hwf : WFwith s l) (k : Int) :
    (s.setCache ((s.getPrevElementNodes k).map some)).ptrNext
      ((s.getPrevElementNodes k).getD 0 Ptr.head) 0 = (l.dropWhile (ltKey s k)).head? := by
  rw [setCache_ptrNext, getPrevElementNodes_getD hwf k hwf.maxLevel_pos,
    ptrNext_rightmostBelow hwf.sorted (hwf.links 0 hwf.maxLevel_pos),
    chainAt_zero hwf.height_pos]

theorem Set_eq_update {s : SkipList V} {l : List Nat} (hwf : WFwith s l) {k : Int} {nid : Nat}
    (hdw : (l.dropWhile (ltKey s k)).head? = some nid) (hk : s.keyAt nid ≤ k)
    (v : V) (lvl : Nat) :
    s.Set k v lvl =
      ((s.setCache ((s.getPrevElementNodes k).map some)).setValue nid v, Ptr.node nid) := by
  unfold SkipList.Set
  dsimp only
  rw [Set_candidate hwf, hdw]
  dsimp only
  rw [if_pos (by rw [setCache_keyAt]; exact hk)]

theorem Set_eq_insert {s : SkipList V} {l : List Nat} (hwf : WFwith s l) {k : Int}
    (hcand : ∀ nid, (l.dropWhile (ltKey s k)).head? = some nid → k < s.keyAt nid)
    (v : V) (lvl : Nat) :
    s.Set k v lvl =
      (s.setCache ((s.getPrevElementNodes k).map some)).insertElement
        (s.getPrevElementNodes k) k v lvl := by
  unfold SkipList.Set
  dsimp only
  rw [Set_candidate hwf]
  cases hdw : (l.dropWhile (ltKey s k)).head? with
  | none => rfl
  | some d =>
    dsimp only
    rw [if_neg]
    rw [setCache_keyAt]
    have := hcand d hdw
    omega

theorem Remove_eq_found {s : SkipList V} {l : List Nat} (hwf : WFwith s l) {k : Int} {nid : Nat}
    (hdw : (l.dropWhile (ltKey s k)).head? = some nid) (hk : s.keyAt nid ≤ k) :
    s.Remove k =
      (((SkipList.removeLinks (s.getPrevElementNodes k) nid
            ((s.setCache ((s.getPrevElementNodes k).map some)).heightAt nid)
            (s.setCache ((s.getPrevElementNodes k).map some))).setLen
          ((s.setCache ((s.getPrevElementNodes k).map some)).length - 1)),
        some (Ptr.node nid)) := by
  unfold SkipList.Remove
  dsimp only
  rw [Set_candidate hwf, hdw]
  dsimp only
  rw [if_pos (by rw [setCache_keyAt]; exact hk)]

theorem Remove_eq_absent {s : SkipList V} {l : List Nat} (hwf : WFwith s l) {k : Int}
    (hcand : ∀ nid, (l.dropWhile (ltKey s k)).head? = some nid → k < s.keyAt nid) :
    s.Remove k = (s.setCache ((s.getPrevElementNodes k).map some), none) := by
  unfold SkipList.Remove
  dsimp only
  rw [Set_candidate hwf]
  cases hdw : (l.dropWhile (ltKey s k)).head? with
  | none => rfl
  | some d =>
    dsimp only
    rw [if_neg]
    rw [setCache_keyAt]
    have := hcand d hdw
    omega

theorem absent_candidate_gt {s : SkipList V} {l : List Nat} (hwf : WFwith s l) {k : Int}
    (habs : ∀ nid ∈ l, s.keyAt nid ≠ k) :
    ∀ nid, (l.dropWhile (ltKey s k)).head? = some nid → k < s.keyAt nid := by
  intro nid hdw
  have hmem : nid ∈ l.dropWhile (ltKey s k) := by
    cases hdw2 : l.dropWhile (ltKey s k) with
    | nil => rw [hdw2] at hdw; cases hdw
    | cons x rest =>
      rw [hdw2] at hdw
      have hxd : x = nid := by simpa using hdw
      subst hxd
      exact List.mem_cons_self _ _
  have hge := sorted_dropWhile_ge hwf.sorted nid hmem
  have hne := habs nid ((List.dropWhile_sublist _).mem hmem)
  omega

theorem chainAt_append (s : SkipList V) (X Y : List Nat) (i : Nat) :
    chainAt s (X ++ Y) i = chainAt s X i ++ chainAt s Y i := List.filter_append _ _

theorem chainAt_congr {s s' : SkipList V} {l : List Nat}
    (h : ∀ n ∈ l, s'.heightAt n = s.heightAt n) (i : Nat) :
    chainAt s' l i = chainAt s l i := by
  unfold chainAt
  exact List.filter_congr (fun n hn => by rw [h n hn])

theorem pairwise_keys_congr {s s' : SkipList V} {l : List Nat}
    (h : ∀ n ∈ l, s'.keyAt n = s.keyAt n) (hp : l.Pairwise (s.keyAt · < s.keyAt ·)) :
    l.Pairwise (s'.keyAt · < s'.keyAt ·) :=
  hp.imp_of_mem (fun ha hb hr => by rw [h _ ha, h _ hb]; exact hr)

theorem tw_all_lt (s : SkipList V) (l : List Nat) (k : Int) :
    ∀ a ∈ l.takeWhile (ltKey s k), ltKey s k a = true :=
  fun _ ha => List.mem_takeWhile_imp ha

theorem dw_all_not_lt {s : SkipList V} {l : List Nat}
    (hsorted : l.Pairwise (s.keyAt · < s.keyAt ·)) (k : Int) :
    ∀ a ∈ l.dropWhile (ltKey s k), ltKey s k a = false := by
  intro a ha
  have := sorted_dropWhile_ge hsorted a ha
  simp only [ltKey, decide_eq_false_iff_not]
  omega

theorem chain_filter_lt {s : SkipList V} {l : List Nat}
    (hsorted : l.Pairwise (s.keyAt · < s.keyAt ·)) (k : Int) (i : Nat) :
    (chainAt s l i).filter (ltKey s k) = chainAt s (l.takeWhile (ltKey s k)) i := by
  conv_lhs => rw [← List.takeWhile_append_dropWhile (p := ltKey s k) (l := l)]
  rw [chainAt_append, List.filter_append,
    List.filter_eq_self.mpr (fun a ha => tw_all_lt s l k a ((chainAt_sublist _ _ _).mem ha)),
    List.filter_eq_nil.mpr
      (fun a ha => by
        rw [dw_all_not_lt hsorted k a ((chainAt_sublist _ _ _).mem ha)]
        exact Bool.false_ne_true),
    List.append_nil]

theorem chain_dropWhile_lt {s : SkipList V} {l : List Nat}
    (hsorted : l.Pairwise (s.keyAt · < s.keyAt ·)) (k : Int) (i : Nat) :
    (chainAt s l i).dropWhile (ltKey s k) = chainAt s (l.dropWhile (ltKey s k)) i := by
  conv_lhs => rw [← List.takeWhile_append_dropWhile (p := ltKey s k) (l := l)]
  rw [chainAt_append]
  exact dropWhile_append_all
    (fun a ha => tw_all_lt s l k a ((chainAt_sublist _ _ _).mem ha))
    (fun a ha => dw_all_not_lt hsorted k a ((chainAt_sublist _ _ _).mem ha))

theorem rightmostBelow_foldl {s : SkipList V} {l : List Nat}
    (hsorted : l.Pairwise (s.keyAt · < s.keyAt ·)) (k : Int) (i : Nat) :
    rightmostBelow s l i k =
      (chainAt s (l.takeWhile (ltKey s k)) i).foldl (fun _ n => Ptr.node n) Ptr.head := by
  unfold rightmostBelow
  rw [chain_filter_lt hsorted]

theorem pushElem_keyAt_ne (e : Element V) {n : Nat} (h : n ≠ s.store.length) :
    (s.pushElem e).keyAt n = s.keyAt n := by
  rcases Nat.lt_or_ge n s.store.length with hlt | hge
  · exact pushElem_keyAt_old e hlt
  · have hgt : s.store.length < n := by omega
    unfold SkipList.keyAt
    rw [pushElem_store_get?_hi e hgt, List.get?_eq_none.mpr (by omega)]

theorem pushElem_heightAt_ne (e : Element V) {n : Nat} (h : n ≠ s.store.length) :
    (s.pushElem e).heightAt n = s.heightAt n := by
  rcases Nat.lt_or_ge n s.store.length with hlt | hge
  · exact pushElem_heightAt_old e hlt
  · have hgt : s.store.length < n := by omega
    unfold SkipList.heightAt
    rw [pushElem_store_get?_hi e hgt, List.get?_eq_none.mpr (by omega)]

theorem pushElem_valueAt_ne (e : Element V) {n : Nat} (h : n ≠ s.store.length) :
    (s.pushElem e).valueAt n = s.valueAt n := by
  rcases Nat.lt_or_ge n s.store.length with hlt | hge
  · exact pushElem_valueAt_old e hlt
  · have hgt : s.store.length < n := by omega
    unfold SkipList.valueAt
    rw [pushElem_store_get?_hi e hgt, List.get?_eq_none.mpr (by omega)]

theorem insertElement_spec {s : SkipList V} {l : List Nat} (hwf : WFwith s l) {k : Int}
    {prevs : List Ptr}
    (hprevs : ∀ i < s.maxLevel, prevs.getD i Ptr.head = rightmostBelow s l i k)
    (habs : ∀ nid ∈ l, s.keyAt nid ≠ k) (v : V) {lvl : Nat}
    (h1 : 1 ≤ lvl) (h2 : lvl ≤ s.maxLevel) :
    ∃ s4, s.insertElement prevs k v lvl = (s4, Ptr.node s.store.length) ∧
      WFwith s4 (l.takeWhile (ltKey s k) ++ s.store.length :: l.dropWhile (ltKey s k)) ∧
      s4.store.length = s.store.length + 1 ∧
      s4.length = s.length + 1 ∧
      s4.keyAt s.store.length = k ∧
      s4.valueAt s.store.length = some v ∧
      s4.heightAt s.store.length = lvl ∧
      (∀ n, n ≠ s.store.length → s4.keyAt n = s.keyAt n ∧ s4.valueAt n = s.valueAt n ∧
        s4.heightAt n = s.heightAt n) ∧
      s4.maxLevel = s.maxLevel ∧ s4.probTable = s.probTable ∧
      s4.next.length = s.next.length := by
  refine ⟨_, rfl, ?_⟩
  have htw_sub : List.Sublist (l.takeWhile (ltKey s k)) l := List.takeWhile_sublist _
  have hdw_sub : List.Sublist (l.dropWhile (ltKey s k)) l := List.dropWhile_sublist _
  have hkey4_ne : ∀ n, n ≠ s.store.length →
      ((SkipList.insertLinks prevs s.store.length lvl
          (s.pushElem ⟨List.replicate lvl none, k, v⟩)).setLen
        ((SkipList.insertLinks prevs s.store.length lvl
          (s.pushElem ⟨List.replicate lvl none, k, v⟩)).length + 1)).keyAt n = s.keyAt n := by
    intro n hn
    rw [setLen_keyAt, insertLinks_keyAt, pushElem_keyAt_ne _ hn]
  have hkey4_new :
      ((SkipList.insertLinks prevs s.store.length lvl
          (s.pushElem ⟨List.replicate lvl none, k, v⟩)).setLen
        ((SkipList.insertLinks prevs s.store.length lvl
          (s.pushElem ⟨List.replicate lvl none, k, v⟩)).length + 1)).keyAt s.store.length = k := by
    rw [setLen_keyAt, insertLinks_keyAt, pushElem_keyAt_new]
  have hh4_ne : ∀ n, n ≠ s.store.length →
      ((SkipList.insertLinks prevs s.store.length lvl
          (s.pushElem ⟨List.replicate lvl none, k, v⟩)).setLen
        ((SkipList.insertLinks prevs s.store.length lvl
          (s.pushElem ⟨List.replicate lvl none, k, v⟩)).length + 1)).heightAt n =
        s.heightAt n := by
    intro n hn
    rw [setLen_heightAt, insertLinks_heightAt, pushElem_heightAt_ne _ hn]
  have hh4_new :
      ((SkipList.insertLinks prevs s.store.length lvl
          (s.pushElem ⟨List.replicate lvl none, k, v⟩)).setLen
        ((SkipList.insertLinks prevs s.store.length lvl
          (s.pushElem ⟨List.replicate lvl none, k, v⟩)).length + 1)).heightAt s.store.length =
        lvl := by
    rw [setLen_heightAt, insertLinks_heightAt, pushElem_heightAt_new]
    simp
  have hv4_ne : ∀ n, n ≠ s.store.length →
      ((SkipList.insertLinks prevs s.store.length lvl
          (s.pushElem ⟨List.replicate lvl none, k, v⟩)).setLen
        ((SkipList.insertLinks prevs s.store.length lvl
          (s.pushElem ⟨List.replicate lvl none, k, v⟩)).length + 1)).valueAt n =
        s.valueAt n := by
    intro n hn
    rw [setLen_valueAt, insertLinks_valueAt, pushElem_valueAt_ne _ hn]
  have hv4_new :
      ((SkipList.insertLinks prevs s.store.length lvl
          (s.pushElem ⟨List.replicate lvl none, k, v⟩)).setLen
        ((SkipList.insertLinks prevs s.store.length lvl
          (s.pushElem ⟨List.replicate lvl none, k, v⟩)).length + 1)).valueAt s.store.length =
        some v := by
    rw [setLen_valueAt, insertLinks_valueAt, pushElem_valueAt_new]
  have hok : ∀ j < lvl,
      writeOK (s.pushElem ⟨List.replicate lvl none, k, v⟩) (prevs.getD j Ptr.head) j := by
    intro j hj
    rw [hprevs j (lt_of_lt_of_le hj h2)]
    refine (pushElem_writeOK_old _ ?_ j).mpr
      (writeOK_rightmostBelow hwf k (lt_of_lt_of_le hj h2))
    rcases rightmostBelow_cases s l j k with h | ⟨m, hm, hmem, -⟩
    · exact Or.inl h
    · exact Or.inr ⟨m, hm, hwf.valid m hmem⟩
  have hoknew : ∀ j < lvl,
      writeOK (s.pushElem ⟨List.replicate lvl none, k, v⟩) (Ptr.node s.store.length) j := by
    intro j hj
    exact pushElem_writeOK_new _ j (by simpa using hj)
  have hfresh : ∀ j < lvl, prevs.getD j Ptr.head ≠ Ptr.node s.store.length := by
    intro j hj
    rw [hprevs j (lt_of_lt_of_le hj h2)]
    rcases rightmostBelow_cases s l j k with h | ⟨m, hm, hmem, -⟩
    · rw [h]
      intro hc
      cases hc
    · rw [hm]
      have := hwf.valid m hmem
      intro hc
      injection hc with hmn
      omega
  have hchar := insertLinks_ptrNext lvl hok hoknew hfresh
  have hsplit : ∀ i : Nat, chainAt s l i =
      chainAt s (l.takeWhile (ltKey s k)) i ++ chainAt s (l.dropWhile (ltKey s k)) i := by
    intro i
    conv_lhs => rw [← List.takeWhile_append_dropWhile (p := ltKey s k) (l := l)]
    rw [chainAt_append]
  have henc2 : ∀ i < s.maxLevel,
      encodesFrom (s.pushElem ⟨List.replicate lvl none, k, v⟩) i Ptr.head (chainAt s l i) := by
    intro i hi
    refine encodesFrom_of_agree (hwf.links i hi) (pushElem_ptrNext_head _ i) ?_
    intro n hn
    exact pushElem_ptrNext_old _ (hwf.valid n ((chainAt_sublist s l i).mem hn)) i
  have hptr2_rb : ∀ i, (s.pushElem ⟨List.replicate lvl none, k, v⟩).ptrNext
      (rightmostBelow s l i k) i = s.ptrNext (rightmostBelow s l i k) i := by
    intro i
    rcases rightmostBelow_cases s l i k with h | ⟨m, hm, hmem, -⟩
    · rw [h]
      exact pushElem_ptrNext_head _ i
    · rw [hm]
      exact pushElem_ptrNext_old _ (hwf.valid m hmem) i
  have hchain4 : ∀ i : Nat, chainAt
      ((SkipList.insertLinks prevs s.store.length lvl
          (s.pushElem ⟨List.replicate lvl none, k, v⟩)).setLen
        ((SkipList.insertLinks prevs s.store.length lvl
          (s.pushElem ⟨List.replicate lvl none, k, v⟩)).length + 1))
      (l.takeWhile (ltKey s k) ++ s.store.length :: l.dropWhile (ltKey s k)) i =
      chainAt s (l.takeWhile (ltKey s k)) i ++
        (if i < lvl then s.store.length :: chainAt s (l.dropWhile (ltKey s k)) i
         else chainAt s (l.dropWhile (ltKey s k)) i) := by
    intro i
    rw [chainAt_append]
    have hc1 : ∀ X : List Nat, List.Sublist X l → chainAt
        ((SkipList.insertLinks prevs s.store.length lvl
            (s.pushElem ⟨List.replicate lvl none, k, v⟩)).setLen
          ((SkipList.insertLinks prevs s.store.length lvl
            (s.pushElem ⟨List.replicate lvl none, k, v⟩)).length + 1)) X i = chainAt s X i := by
      intro X hX
      refine chainAt_congr ?_ i
      intro n hn
      have hv := hwf.valid n (hX.mem hn)
      exact hh4_ne n (by omega)
    rw [hc1 _ htw_sub]
    have hc2 : chainAt
        ((SkipList.insertLinks prevs s.store.length lvl
            (s.pushElem ⟨List.replicate lvl none, k, v⟩)).setLen
          ((SkipList.insertLinks prevs s.store.length lvl
            (s.pushElem ⟨List.replicate lvl none, k, v⟩)).length + 1))
        (s.store.length :: l.dropWhile (ltKey s k)) i =
        (if i < lvl then s.store.length :: chainAt s (l.dropWhile (ltKey s k)) i
         else chainAt s (l.dropWhile (ltKey s k)) i) := by
      unfold chainAt
      rw [List.filter_cons]
      rw [hh4_new]
      have hc3 := hc1 _ hdw_sub
      unfold chainAt at hc3
      rw [hc3]
      by_cases hil : i < lvl <;> simp [hil]
    rw [hc2]
  have hlinks4 : ∀ i, i < s.maxLevel → encodesFrom
      ((SkipList.insertLinks prevs s.store.length lvl
          (s.pushElem ⟨List.replicate lvl none, k, v⟩)).setLen
        ((SkipList.insertLinks prevs s.store.length lvl
          (s.pushElem ⟨List.replicate lvl none, k, v⟩)).length + 1)) i Ptr.head
      (chainAt s (l.takeWhile (ltKey s k)) i ++
        (if i < lvl then s.store.length :: chainAt s (l.dropWhile (ltKey s k)) i
         else chainAt s (l.dropWhile (ltKey s k)) i)) := by
    intro i hi
    by_cases hil : i < lvl
    · rw [if_pos hil]
      refine encodes_relink (s := s.pushElem ⟨List.replicate lvl none, k, v⟩)
        ?_ ?_ ?_ ?_ ?_ ?_
      · rw [← hsplit i]
        exact henc2 i hi
      · exact nodup_head_cons ((pairwise_nodup hwf.sorted).sublist
          ((chainAt_sublist s _ i).trans htw_sub))
      · rw [setLen_ptrNext, ← rightmostBelow_foldl hwf.sorted k i, ← hprevs i hi, hchar]
        rw [if_pos hil, if_pos rfl]
      · rw [setLen_ptrNext, hchar]
        rw [if_pos hil, if_neg (fun hc => hfresh i hil hc.symm), if_pos rfl]
        rw [hprevs i hi, hptr2_rb i,
          ptrNext_rightmostBelow hwf.sorted (hwf.links i hi), chain_dropWhile_lt hwf.sorted k i]
      · intro x hx hxq
        rw [setLen_ptrNext, hchar, if_pos hil]
        have hxq2 : x ≠ prevs.getD i Ptr.head := by
          rw [hprevs i hi, rightmostBelow_foldl hwf.sorted k i]
          exact hxq
        have hxnew : x ≠ Ptr.node s.store.length := by
          rcases List.mem_cons.mp hx with rfl | hx'
          · intro hc
            cases hc
          · rw [List.mem_map] at hx'
            obtain ⟨a, ha, rfl⟩ := hx'
            have := hwf.valid a ((chainAt_sublist s _ i).trans htw_sub |>.mem ha)
            intro hc
            injection hc with hc'
            omega
        rw [if_neg hxq2, if_neg hxnew]
      · intro n hn
        rw [setLen_ptrNext, hchar, if_pos hil]
        have hn_l : n ∈ l.dropWhile (ltKey s k) := (chainAt_sublist s _ i).mem hn
        have hnge : k ≤ s.keyAt n := sorted_dropWhile_ge hwf.sorted n hn_l
        have hne1 : Ptr.node n ≠ prevs.getD i Ptr.head := by
          rw [hprevs i hi]
          rcases rightmostBelow_cases s l i k with h | ⟨m, hm, hmem, hmk⟩
          · rw [h]
            intro hc
            cases hc
          · rw [hm]
            intro hc
            injection hc with hc'
            subst hc'
            omega
        have hne2 : Ptr.node n ≠ Ptr.node s.store.length := by
          have := hwf.valid n (hdw_sub.mem hn_l)
          intro hc
          injection hc with hc'
          omega
        rw [if_neg hne1, if_neg hne2]
    · rw [if_neg hil]
      rw [← hsplit i]
      refine encodesFrom_of_agree (henc2 i hi) ?_ ?_
      · rw [setLen_ptrNext, hchar, if_neg hil]
      · intro n _
        rw [setLen_ptrNext, hchar, if_neg hil]
  have hlen_tw_dw : (l.takeWhile (ltKey s k)).length + (l.dropWhile (ltKey s k)).length =
      l.length := by
    conv_rhs => rw [← List.takeWhile_append_dropWhile (p := ltKey s k) (l := l)]
    rw [List.length_append]
  refine ⟨?_, ?_, ?_, ?_, ?_, ?_, ?_, ?_, ?_, ?_⟩
  · -- WFwith
    refine ⟨?_, ?_, ?_, ?_, ?_, ?_, ?_, ?_, ?_⟩
    · rw [setLen_next, insertLinks_next_length, pushElem_next, setLen_maxLevel,
        insertLinks_maxLevel, pushElem_maxLevel]
      exact hwf.header_len
    · rw [setLen_maxLevel, insertLinks_maxLevel, pushElem_maxLevel]
      exact hwf.maxLevel_pos
    · rw [setLen_probTable, insertLinks_probTable, pushElem_probTable, setLen_maxLevel,
        insertLinks_maxLevel, pushElem_maxLevel]
      exact hwf.probTable_len
    · intro nid hmem
      rw [setLen_store, insertLinks_store_length, pushElem_store_length]
      rcases List.mem_append.mp hmem with h | h
      · have := hwf.valid nid (htw_sub.mem h)
        omega
      · rcases List.mem_cons.mp h with rfl | h'
        · omega
        · have := hwf.valid nid (hdw_sub.mem h')
          omega
    · intro nid hmem
      rcases List.mem_append.mp hmem with h | h
      · have := hwf.valid nid (htw_sub.mem h)
        rw [hh4_ne nid (by omega)]
        exact hwf.height_pos nid (htw_sub.mem h)
      · rcases List.mem_cons.mp h with rfl | h'
        · rw [hh4_new]
          exact h1
        · have := hwf.valid nid (hdw_sub.mem h')
          rw [hh4_ne nid (by omega)]
          exact hwf.height_pos nid (hdw_sub.mem h')
    · intro nid hmem
      rw [setLen_maxLevel, insertLinks_maxLevel, pushElem_maxLevel]
      rcases List.mem_append.mp hmem with h | h
      · have := hwf.valid nid (htw_sub.mem h)
        rw [hh4_ne nid (by omega)]
        exact hwf.height_le nid (htw_sub.mem h)
      · rcases List.mem_cons.mp h with rfl | h'
        · rw [hh4_new]
          exact h2
        · have := hwf.valid nid (hdw_sub.mem h')
          rw [hh4_ne nid (by omega)]
          exact hwf.height_le nid (hdw_sub.mem h')
    · rw [List.pairwise_append]
      refine ⟨?_, ?_, ?_⟩
      · refine pairwise_keys_congr ?_ (hwf.sorted.sublist htw_sub)
        intro n hn
        have := hwf.valid n (htw_sub.mem hn)
        exact hkey4_ne n (by omega)
      · rw [List.pairwise_cons]
        refine ⟨?_, ?_⟩
        · intro b hb
          have hbv := hwf.valid b (hdw_sub.mem hb)
          rw [hkey4_new, hkey4_ne b (by omega)]
          have hge := sorted_dropWhile_ge hwf.sorted b hb
          have hne := habs b (hdw_sub.mem hb)
          omega
        · refine pairwise_keys_congr ?_ (hwf.sorted.sublist hdw_sub)
          intro n hn
          have := hwf.valid n (hdw_sub.mem hn)
          exact hkey4_ne n (by omega)
      · intro a ha b hb
        have hav := hwf.valid a (htw_sub.mem ha)
        have halt : s.keyAt a < k := takeWhile_all_lt ha
        rw [hkey4_ne a (by omega)]
        rcases List.mem_cons.mp hb with rfl | hb'
        · rw [hkey4_new]
          exact halt
        · have hbv := hwf.valid b (hdw_sub.mem hb')
          rw [hkey4_ne b (by omega)]
          have := sorted_dropWhile_ge hwf.sorted b hb'
          omega
    · intro i hi
      rw [setLen_maxLevel, insertLinks_maxLevel, pushElem_maxLevel] at hi
      rw [hchain4 i]
      exact hlinks4 i hi
    · rw [setLen_length, insertLinks_length, pushElem_length, hwf.len_eq,
        List.length_append, List.length_cons]
      have := hlen_tw_dw
      push_cast
      omega
  · rw [setLen_store, insertLinks_store_length, pushElem_store_length]
  · rw [setLen_length, insertLinks_length, pushElem_length]
  · exact hkey4_new
  · exact hv4_new
  · exact hh4_new
  · intro n hn
    exact ⟨hkey4_ne n hn, hv4_ne n hn, hh4_ne n hn⟩
  · rw [setLen_maxLevel, insertLinks_maxLevel, pushElem_maxLevel]
  · rw [setLen_probTable, insertLinks_probTable, pushElem_probTable]
  · rw [setLen_next, insertLinks_next_length, pushElem_next]

theorem Remove_found_spec {s : SkipList V} {l : List Nat} (hwf : WFwith s l) {k : Int}
    {nid : Nat} {rest : List Nat}
    (hdw : l.dropWhile (ltKey s k) = nid :: rest) (hk : s.keyAt nid = k) :
    ∃ s', s.Remove k = (s', some (Ptr.node nid)) ∧
      WFwith s' (l.takeWhile (ltKey s k) ++ rest) ∧
      s'.length = s.length - 1 ∧
      s'.store.length = s.store.length ∧
      s'.store.get? nid = s.store.get? nid ∧
      s'.ptrNext (Ptr.node nid) 0 = rest.head? ∧
      (∀ n, s'.keyAt n = s.keyAt n ∧ s'.valueAt n = s.valueAt n ∧
        s'.heightAt n = s.heightAt n) ∧
      s'.maxLevel = s.maxLevel ∧ s'.probTable = s.probTable ∧
      s'.next.length = s.next.length ∧
      (∀ (p : Ptr) (i : Nat), ¬ (i < s.heightAt nid ∧ p = rightmostBelow s l i k) →
        s'.ptrNext p i = s.ptrNext p i) := by
  have heq := Remove_eq_found hwf
    (show (l.dropWhile (ltKey s k)).head? = some nid by rw [hdw]; rfl) (le_of_eq hk)
  refine ⟨_, heq, ?_⟩
  have htw_sub : List.Sublist (l.takeWhile (ltKey s k)) l := List.takeWhile_sublist _
  have hdw_sub : List.Sublist (l.dropWhile (ltKey s k)) l := List.dropWhile_sublist _
  have hl : l = l.takeWhile (ltKey s k) ++ nid :: rest := by
    conv_lhs => rw [← List.takeWhile_append_dropWhile (p := ltKey s k) (l := l)]
    rw [hdw]
  have hnid_dw : nid ∈ l.dropWhile (ltKey s k) := by
    rw [hdw]
    exact List.mem_cons_self _ _
  have hnid_l : nid ∈ l := hdw_sub.mem hnid_dw
  have hnid_v : nid < s.store.length := hwf.valid nid hnid_l
  have hrest_dw : ∀ n ∈ rest, n ∈ l.dropWhile (ltKey s k) := by
    intro n hn
    rw [hdw]
    exact List.mem_cons_of_mem _ hn
  have hhgt : (s.setCache ((s.getPrevElementNodes k).map some)).heightAt nid =
      s.heightAt nid := rfl
  have hhgt_le : s.heightAt nid ≤ s.maxLevel := hwf.height_le nid hnid_l
  have hhgt_pos : 1 ≤ s.heightAt nid := hwf.height_pos nid hnid_l
  have hprevs : ∀ i < s.maxLevel,
      (s.getPrevElementNodes k).getD i Ptr.head = rightmostBelow s l i k :=
    fun i hi => getPrevElementNodes_getD hwf k hi
  have hprevs_ne : ∀ j < s.maxLevel, (s.getPrevElementNodes k).getD j Ptr.head ≠
      Ptr.node nid := by
    intro j hj
    rw [hprevs j hj]
    rcases rightmostBelow_cases s l j k with h | ⟨m, hm, hmem, hmk⟩
    · rw [h]
      intro hc
      cases hc
    · rw [hm]
      intro hc
      injection hc with hc'
      subst hc'
      omega
  have hok : ∀ j < s.heightAt nid, writeOK (s.setCache ((s.getPrevElementNodes k).map some))
      ((s.getPrevElementNodes k).getD j Ptr.head) j := by
    intro j hj
    have hjm : j < s.maxLevel := lt_of_lt_of_le hj hhgt_le
    rw [hprevs j hjm]
    exact writeOK_rightmostBelow (WFwith_setCache hwf _) k hjm
  have hchar := @removeLinks_ptrNext _ (s.getPrevElementNodes k) nid
    (s.setCache ((s.getPrevElementNodes k).map some)) (s.heightAt nid) hok
  have hsplit : ∀ i : Nat, chainAt s l i =
      chainAt s (l.takeWhile (ltKey s k)) i ++ chainAt s (l.dropWhile (ltKey s k)) i := by
    intro i
    conv_lhs => rw [← List.takeWhile_append_dropWhile (p := ltKey s k) (l := l)]
    rw [chainAt_append]
  have hfk : ∀ n : Nat,
      ((SkipList.removeLinks (s.getPrevElementNodes k) nid
            ((s.setCache ((s.getPrevElementNodes k).map some)).heightAt nid)
            (s.setCache ((s.getPrevElementNodes k).map some))).setLen
          ((s.setCache ((s.getPrevElementNodes k).map some)).length - 1)).keyAt n =
        s.keyAt n := by
    intro n
    rw [setLen_keyAt, removeLinks_keyAt, setCache_keyAt]
  have hfh : ∀ n : Nat,
      ((SkipList.removeLinks (s.getPrevElementNodes k) nid
            ((s.setCache ((s.getPrevElementNodes k).map some)).heightAt nid)
            (s.setCache ((s.getPrevElementNodes k).map some))).setLen
          ((s.setCache ((s.getPrevElementNodes k).map some)).length - 1)).heightAt n =
        s.heightAt n := by
    intro n
    rw [setLen_heightAt, removeLinks_heightAt, setCache_heightAt]
  have hfv : ∀ n : Nat,
      ((SkipList.removeLinks (s.getPrevElementNodes k) nid
            ((s.setCache ((s.getPrevElementNodes k).map some)).heightAt nid)
            (s.setCache ((s.getPrevElementNodes k).map some))).setLen
          ((s.setCache ((s.getPrevElementNodes k).map some)).length - 1)).valueAt n =
        s.valueAt n := by
    intro n
    rw [setLen_valueAt, removeLinks_valueAt, setCache_valueAt]
  have hchain' : ∀ (X : List Nat) (i : Nat),
      chainAt ((SkipList.removeLinks (s.getPrevElementNodes k) nid
            ((s.setCache ((s.getPrevElementNodes k).map some)).heightAt nid)
            (s.setCache ((s.getPrevElementNodes k).map some))).setLen
          ((s.setCache ((s.getPrevElementNodes k).map some)).length - 1)) X i =
        chainAt s X i := by
    intro X i
    exact chainAt_congr (fun n _ => hfh n) i
  have henc1 : ∀ i < s.maxLevel,
      encodesFrom (s.setCache ((s.getPrevElementNodes k).map some)) i Ptr.head
        (chainAt s l i) := by
    intro i hi
    exact encodesFrom_of_agree (hwf.links i hi) rfl (fun n _ => rfl)
  have hdrest : ∀ i, chainAt s (l.dropWhile (ltKey s k)) i =
      if i < s.heightAt nid then nid :: chainAt s rest i else chainAt s rest i := by
    intro i
    rw [hdw]
    unfold chainAt
    rw [List.filter_cons]
    by_cases hil : i < s.heightAt nid <;> simp [hil]
  have hrm_ptr : ∀ p i, ((SkipList.removeLinks (s.getPrevElementNodes k) nid
          ((s.setCache ((s.getPrevElementNodes k).map some)).heightAt nid)
          (s.setCache ((s.getPrevElementNodes k).map some))).setLen
        ((s.setCache ((s.getPrevElementNodes k).map some)).length - 1)).ptrNext p i =
      if i < s.heightAt nid ∧ p = (s.getPrevElementNodes k).getD i Ptr.head then
        s.ptrNext (Ptr.node nid) i
      else s.ptrNext p i := by
    intro p i
    rw [setLen_ptrNext, hhgt, hchar p i]
    rfl
  have hlinks' : ∀ i, i < s.maxLevel →
      encodesFrom ((SkipList.removeLinks (s.getPrevElementNodes k) nid
            ((s.setCache ((s.getPrevElementNodes k).map some)).heightAt nid)
            (s.setCache ((s.getPrevElementNodes k).map some))).setLen
          ((s.setCache ((s.getPrevElementNodes k).map some)).length - 1)) i Ptr.head
        (chainAt s (l.takeWhile (ltKey s k)) i ++ chainAt s rest i) := by
    intro i hi
    have hAi_nd : (Ptr.head ::
        (chainAt s (l.takeWhile (ltKey s k)) i).map Ptr.node).Nodup :=
      nodup_head_cons ((pairwise_nodup hwf.sorted).sublist
        ((chainAt_sublist s _ i).trans htw_sub))
    have hfold_eq : (chainAt s (l.takeWhile (ltKey s k)) i).foldl
        (fun _ n => Ptr.node n) Ptr.head = (s.getPrevElementNodes k).getD i Ptr.head := by
      rw [hprevs i hi, rightmostBelow_foldl hwf.sorted k i]
    by_cases hil : i < s.heightAt nid
    · have hchain_i : chainAt s l i =
          chainAt s (l.takeWhile (ltKey s k)) i ++ nid :: chainAt s rest i := by
        rw [hsplit i, hdrest i, if_pos hil]
      refine encodes_unlink (s := s.setCache ((s.getPrevElementNodes k).map some))
        (m := nid) ?_ hAi_nd ?_ ?_ ?_
      · rw [← hchain_i]
        exact henc1 i hi
      · rw [hfold_eq, hrm_ptr, if_pos ⟨hil, rfl⟩]
        rfl
      · intro x hx hxq
        rw [hrm_ptr, if_neg (by rintro ⟨-, hpp⟩; exact hxq (by rw [hpp, ← hfold_eq]))]
        rfl
      · intro n hn
        have hn_rest : n ∈ rest := (chainAt_sublist s rest i).mem hn
        have hn_dw : n ∈ l.dropWhile (ltKey s k) := hrest_dw n hn_rest
        have hnge : k ≤ s.keyAt n := sorted_dropWhile_ge hwf.sorted n hn_dw
        have hne1 : Ptr.node n ≠ (s.getPrevElementNodes k).getD i Ptr.head := by
          rw [hprevs i hi]
          rcases rightmostBelow_cases s l i k with h | ⟨m, hm, hmem, hmk⟩
          · rw [h]
            intro hc
            cases hc
          · rw [hm]
            intro hc
            injection hc with hc'
            subst hc'
            omega
        rw [hrm_ptr, if_neg (by rintro ⟨-, hpp⟩; exact hne1 hpp)]
        rfl
    · have hchain_i : chainAt s l i =
          chainAt s (l.takeWhile (ltKey s k)) i ++ chainAt s rest i := by
        rw [hsplit i, hdrest i, if_neg hil]
      rw [← hchain_i]
      refine encodesFrom_of_agree (henc1 i hi) ?_ ?_
      · rw [hrm_ptr, if_neg (by rintro ⟨hii, -⟩; exact hil hii)]
        rfl
      · intro n _
        rw [hrm_ptr, if_neg (by rintro ⟨hii, -⟩; exact hil hii)]
        rfl
  have hlen_split : (l.takeWhile (ltKey s k)).length + (1 + rest.length) = l.length := by
    conv_rhs => rw [hl]
    rw [List.length_append, List.length_cons]
    omega
  refine ⟨?_, ?_, ?_, ?_, ?_, ?_, ?_, ?_, ?_, ?_⟩
  · refine ⟨?_, ?_, ?_, ?_, ?_, ?_, ?_, ?_, ?_⟩
    · rw [setLen_next, removeLinks_next_length, setCache_next, setLen_maxLevel,
        removeLinks_maxLevel, setCache_maxLevel]
      exact hwf.header_len
    · rw [setLen_maxLevel, removeLinks_maxLevel, setCache_maxLevel]
      exact hwf.maxLevel_pos
    · rw [setLen_probTable, removeLinks_probTable, setCache_probTable, setLen_maxLevel,
        removeLinks_maxLevel, setCache_maxLevel]
      exact hwf.probTable_len
    · intro n hmem
      rw [setLen_store, removeLinks_store_length, setCache_store]
      rcases List.mem_append.mp hmem with h | h
      · exact hwf.valid n (htw_sub.mem h)
      · exact hwf.valid n (hdw_sub.mem (hrest_dw n h))
    · intro n hmem
      rw [hfh n]
      rcases List.mem_append.mp hmem with h | h
      · exact hwf.height_pos n (htw_sub.mem h)
      · exact hwf.height_pos n (hdw_sub.mem (hrest_dw n h))
    · intro n hmem
      rw [hfh n, setLen_maxLevel, removeLinks_maxLevel, setCache_maxLevel]
      rcases List.mem_append.mp hmem with h | h
      · exact hwf.height_le n (htw_sub.mem h)
      · exact hwf.height_le n (hdw_sub.mem (hrest_dw n h))
    · refine pairwise_keys_congr (fun n _ => hfk n) ?_
      refine hwf.sorted.sublist ?_
      conv_rhs => rw [hl]
      exact List.Sublist.append (List.Sublist.refl _) (List.sublist_cons_self nid rest)
    · intro i hi
      rw [setLen_maxLevel, removeLinks_maxLevel, setCache_maxLevel] at hi
      rw [chainAt_append, hchain', hchain']
      exact hlinks' i hi
    · rw [setLen_length, setCache_length, hwf.len_eq, List.length_append]
      push_cast
      omega
  · rw [setLen_length, setCache_length]
  · rw [setLen_store, removeLinks_store_length, setCache_store]
  · rw [setLen_store]
    rw [removeLinks_store_get?_untouched _ _ _ _
      (fun j hj => hprevs_ne j (lt_of_lt_of_le (by rwa [hhgt] at hj) hhgt_le))]
    rfl
  · have hne : Ptr.node nid ≠ (s.getPrevElementNodes k).getD 0 Ptr.head :=
      fun hc => hprevs_ne 0 hwf.maxLevel_pos hc.symm
    rw [hrm_ptr, if_neg (by rintro ⟨-, hpp⟩; exact hne hpp)]
    have henc0 := hwf.links 0 hwf.maxLevel_pos
    rw [chainAt_zero hwf.height_pos] at henc0
    have henc0' : encodesFrom s 0 Ptr.head (l.takeWhile (ltKey s k) ++ [nid] ++ rest) := by
      rw [List.append_assoc, List.singleton_append, ← hl]
      exact henc0
    have hstep := encodesFrom_drop (A := l.takeWhile (ltKey s k) ++ [nid]) (p := Ptr.head)
      (D := rest) henc0'
    rw [foldl_node_concat] at hstep
    exact encodesFrom_head? hstep
  · intro n
    exact ⟨hfk n, hfv n, hfh n⟩
  · rw [setLen_maxLevel, removeLinks_maxLevel, setCache_maxLevel]
  · rw [setLen_probTable, removeLinks_probTable, setCache_probTable]
  · rw [setLen_next, removeLinks_next_length, setCache_next]
  · intro p i hnot
    rw [hrm_ptr, if_neg]
    rintro ⟨hi, hp⟩
    refine hnot ⟨hi, ?_⟩
    rw [hp, hprevs i (lt_of_lt_of_le hi hhgt_le)]

theorem rightmostBelow_setCache (s : SkipList V) (c : List (Option Ptr)) (l : List Nat)
    (i : Nat) (k : Int) : rightmostBelow (s.setCache c) l i k = rightmostBelow s l i k := rfl

theorem ltKey_setCache (s : SkipList V) (c : List (Option Ptr)) (k : Int) :
    ltKey (s.setCache c) k = ltKey s k := rfl

theorem mem_key_head {s : SkipList V} {l : List Nat}
    (hwf : WFwith s l) {k : Int} {nid : Nat} (hmem : nid ∈ l) (hkey : s.keyAt nid = k) :
    (l.dropWhile (ltKey s k)).head? = some nid := by
  obtain ⟨d, hd, hdk⟩ := (mem_key_iff_dropWhile hwf.sorted).mp ⟨nid, hmem, hkey⟩
  have hdm : d ∈ l := by
    have hdm' : d ∈ l.dropWhile (ltKey s k) := by
      cases hdw2 : l.dropWhile (ltKey s k) with
      | nil => rw [hdw2] at hd; cases hd
      | cons x rest =>
        rw [hdw2] at hd
        have hxd : x = d := by simpa using hd
        subst hxd
        exact List.mem_cons_self _ _
    exact (List.dropWhile_sublist _).mem hdm'
  have : d = nid := key_unique hwf.sorted hdm hmem (by rw [hdk, hkey])
  subst this
  exact hd

theorem Set_update_spec {s : SkipList V} {l : List Nat} (hwf : WFwith s l) {k : Int}
    {nid : Nat} (hmem : nid ∈ l) (hkey : s.keyAt nid = k) (v : V) (lvl : Nat) :
    ∃ s', s.Set k v lvl = (s', Ptr.node nid) ∧
      WFwith s' l ∧
      s'.length = s.length ∧
      s'.store.length = s.store.length ∧
      s'.valueAt nid = some v ∧
      (∀ n, n ≠ nid → s'.valueAt n = s.valueAt n) ∧
      (∀ n, s'.keyAt n = s.keyAt n ∧ s'.heightAt n = s.heightAt n) ∧
      s'.maxLevel = s.maxLevel ∧ s'.probTable = s.probTable := by
  have hdw : (l.dropWhile (ltKey s k)).head? = some nid := mem_key_head hwf hmem hkey
  have heq := Set_eq_update hwf hdw (le_of_eq hkey) v lvl
  refine ⟨_, heq, ?_, ?_, ?_, ?_, ?_, ?_, ?_, ?_⟩
  · exact WFwith_setValue (WFwith_setCache hwf _) nid v
  · rw [setValue_length, setCache_length]
  · rw [setValue_store_length, setCache_store]
  · rw [setValue_valueAt_eq (by rw [setCache_store]; exact hwf.valid nid hmem) v]
  · intro n hn
    rw [setValue_valueAt_ne nid v hn, setCache_valueAt]
  · intro n
    rw [setValue_keyAt, setCache_keyAt, setValue_heightAt, setCache_heightAt]
    exact ⟨rfl, rfl⟩
  · rw [setValue_maxLevel, setCache_maxLevel]
  · rw [setValue_probTable, setCache_probTable]

theorem Remove_absent_spec {s : SkipList V} {l : List Nat} (hwf : WFwith s l) {k : Int}
    (habs : ∀ nid ∈ l, s.keyAt nid ≠ k) :
    s.Remove k = (s.setCache ((s.getPrevElementNodes k).map some), none) :=
  Remove_eq_absent hwf (absent_candidate_gt hwf habs)

theorem Set_insert_full {s : SkipList V} {l : List Nat} (hwf : WFwith s l) {k : Int}
    (habs : ∀ nid ∈ l, s.keyAt nid ≠ k) (v : V) {lvl : Nat}
    (h1 : 1 ≤ lvl) (h2 : lvl ≤ s.maxLevel) :
    ∃ s4, s.Set k v lvl = (s4, Ptr.node s.store.length) ∧
      WFwith s4 (l.takeWhile (ltKey s k) ++ s.store.length :: l.dropWhile (ltKey s k)) ∧
      s4.store.length = s.store.length + 1 ∧
      s4.length = s.length + 1 ∧
      s4.keyAt s.store.length = k ∧
      s4.valueAt s.store.length = some v ∧
      s4.heightAt s.store.length = lvl ∧
      (∀ n, n ≠ s.store.length → s4.keyAt n = s.keyAt n ∧ s4.valueAt n = s.valueAt n ∧
        s4.heightAt n = s.heightAt n) ∧
      s4.maxLevel = s.maxLevel ∧ s4.probTable = s.probTable ∧
      s4.next.length = s.next.length := by
  have heq := Set_eq_insert hwf (absent_candidate_gt hwf habs) v lvl
  have hwf1 := WFwith_setCache hwf ((s.getPrevElementNodes k).map some)
  have hprevs1 : ∀ i < (s.setCache ((s.getPrevElementNodes k).map some)).maxLevel,
      (s.getPrevElementNodes k).getD i Ptr.head =
        rightmostBelow (s.setCache ((s.getPrevElementNodes k).map some)) l i k := by
    intro i hi
    rw [rightmostBelow_setCache]
    exact getPrevElementNodes_getD hwf k (by simpa using hi)
  have habs1 : ∀ nid ∈ l,
      (s.setCache ((s.getPrevElementNodes k).map some)).keyAt nid ≠ k := by
    intro nid hn
    rw [setCache_keyAt]
    exact habs nid hn
  obtain ⟨s4, heq4, hrest⟩ := insertElement_spec hwf1 hprevs1 habs1 v h1
    (by rw [setCache_maxLevel]; exact h2)
  refine ⟨s4, ?_, ?_⟩
  · rw [heq, heq4, setCache_store]
  · rw [show ltKey (s.setCache ((s.getPrevElementNodes k).map some)) k = ltKey s k from rfl,
      setCache_store] at hrest
    exact hrest

theorem Remove_mem_full {s : SkipList V} {l : List Nat} (hwf : WFwith s l) {k : Int}
    {nid : Nat} (hmem : nid ∈ l) (hkey : s.keyAt nid = k) :
    ∃ s' rest, l.dropWhile (ltKey s k) = nid :: rest ∧
      s.Remove k = (s', some (Ptr.node nid)) ∧
      WFwith s' (l.takeWhile (ltKey s k) ++ rest) ∧
      s'.length = s.length - 1 ∧
      s'.store.length = s.store.length ∧
      s'.store.get? nid = s.store.get? nid ∧
      s'.ptrNext (Ptr.node nid) 0 = rest.head? ∧
      (∀ n, s'.keyAt n = s.keyAt n ∧ s'.valueAt n = s.valueAt n ∧
        s'.heightAt n = s.heightAt n) ∧
      s'.maxLevel = s.maxLevel ∧ s'.probTable = s.probTable ∧
      s'.next.length = s.next.length ∧
      (∀ (p : Ptr) (i : Nat), ¬ (i < s.heightAt nid ∧ p = rightmostBelow s l i k) →
        s'.ptrNext p i = s.ptrNext p i) := by
  have hd := mem_key_head hwf hmem hkey
  cases hdw : l.dropWhile (ltKey s k) with
  | nil => rw [hdw] at hd; cases hd
  | cons x rest =>
    rw [hdw] at hd
    have hxd : x = nid := by simpa using hd
    subst hxd
    obtain ⟨s', heq, hrest⟩ := Remove_found_spec hwf hdw hkey
    exact ⟨s', rest, rfl, heq, hrest⟩

theorem probabilityTable_length (p : ℚ) (n : Nat) : (probabilityTable p n).length = n := by
  simp [probabilityTable]

theorem NewWithMaxLevel_WF {m : Int} {s : SkipList V} (h : NewWithMaxLevel m = some s) :
    WFwith s [] ∧ s.maxLevel = m.toNat ∧ s.store = [] ∧ s.length = 0 ∧
      s.probability = DefaultProbability ∧
      s.probTable = probabilityTable DefaultProbability m.toNat ∧
      s.next = List.replicate m.toNat none ∧
      s.prevNodesCache = List.replicate m.toNat none ∧ 1 ≤ m ∧ m ≤ 64 := by
  unfold NewWithMaxLevel at h
  by_cases hc : m < 1 ∨ m > 64
  · rw [if_pos hc] at h
    cases h
  · rw [if_neg hc] at h
    push_neg at hc
    injection h with h
    subst h
    refine ⟨?_, rfl, rfl, rfl, rfl, rfl, rfl, rfl, hc.1, hc.2⟩
    refine ⟨?_, ?_, ?_, ?_, ?_, ?_, ?_, ?_, ?_⟩
    · simp
    · show 1 ≤ m.toNat
      omega
    · exact probabilityTable_length _ _
    · intro nid hn
      cases hn
    · intro nid hn
      cases hn
    · intro nid hn
      cases hn
    · exact List.Pairwise.nil
    · intro i _
      show encodesFrom _ i Ptr.head (chainAt _ [] i)
      unfold chainAt
      rw [List.filter_nil]
      show (List.replicate m.toNat none).getD i none = none
      exact getD_replicate_none _ _
    · rfl

theorem WFwith_SetProbability {s : SkipList V} {l : List Nat} (hwf : WFwith s l) (p : ℚ) :
    WFwith (s.SetProbability p) l := by
  refine ⟨?_, ?_, ?_, ?_, ?_, ?_, ?_, ?_, ?_⟩
  · exact hwf.header_len
  · exact hwf.maxLevel_pos
  · show (probabilityTable p s.maxLevel).length = s.maxLevel
    exact probabilityTable_length _ _
  · exact hwf.valid
  · exact hwf.height_pos
  · exact hwf.height_le
  · exact hwf.sorted
  · intro i hi
    exact encodesFrom_of_agree (hwf.links i hi) rfl (fun n _ => rfl)
  · exact hwf.len_eq

theorem Reachable_WF {s : SkipList V} (h : Reachable s) : ∃ l, WFwith s l := by
  induction h with
  | fresh m s hnew => exact ⟨[], (NewWithMaxLevel_WF hnew).1⟩
  | set s k v lvl hr h1 h2 ih =>
    obtain ⟨l, hwf⟩ := ih
    by_cases hmem : ∃ nid ∈ l, s.keyAt nid = k
    · obtain ⟨nid, hm, hk⟩ := hmem
      obtain ⟨s', heq, hwf', -⟩ := Set_update_spec hwf hm hk v lvl
      rw [heq]
      exact ⟨l, hwf'⟩
    · push_neg at hmem
      obtain ⟨s4, heq, hwf4, -⟩ := Set_insert_full hwf hmem v h1 h2
      rw [heq]
      exact ⟨_, hwf4⟩
  | remove s k hr ih =>
    obtain ⟨l, hwf⟩ := ih
    by_cases hmem : ∃ nid ∈ l, s.keyAt nid = k
    · obtain ⟨nid, hm, hk⟩ := hmem
      obtain ⟨s', rest, hdw, heq, hwf', -⟩ := Remove_mem_full hwf hm hk
      rw [heq]
      exact ⟨_, hwf'⟩
    · push_neg at hmem
      rw [Remove_absent_spec hwf hmem]
      exact ⟨l, WFwith_setCache hwf _⟩
  | setProb s p hr ih =>
    obtain ⟨l, hwf⟩ := ih
    exact ⟨l, WFwith_SetProbability hwf p⟩

theorem ptrNext_zero_bind (s : SkipList V) (nid : Nat) :
    (s.store.get? nid).bind Element.Next = s.ptrNext (.node nid) 0 := by
  unfold SkipList.ptrNext Element.Next
  dsimp only
  cases s.store.get? nid <;> rfl

theorem fromFront_encodes {s : SkipList V} {c : List Nat} :
    ∀ {p : Ptr} {fuel : Nat}, encodesFrom s 0 p c → c.length ≤ fuel →
      s.fromFront fuel (s.ptrNext p 0) = c := by
  induction c with
  | nil =>
    intro p fuel henc _
    have hnone : s.ptrNext p 0 = none := henc
    rw [hnone]
    cases fuel <;> rfl
  | cons n rest ih =>
    intro p fuel henc hf
    have h1 : s.ptrNext p 0 = some n := henc.1
    cases fuel with
    | zero => simp at hf
    | succ f =>
      rw [h1]
      show n :: s.fromFront f ((s.store.get? n).bind Element.Next) = n :: rest
      rw [ptrNext_zero_bind]
      rw [ih henc.2 (by simp at hf; omega)]

theorem toList_eq {s : SkipList V} {l : List Nat} (hwf : WFwith s l) : s.toList = l := by
  unfold SkipList.toList
  have henc := hwf.links 0 hwf.maxLevel_pos
  rw [chainAt_zero hwf.height_pos] at henc
  show s.fromFront s.store.length (s.ptrNext Ptr.head 0) = l
  exact fromFront_encodes henc (length_le_store (pairwise_nodup hwf.sorted) hwf.valid)

theorem randLevelLoop_le (maxLevel : Nat) (t : List ℚ) (r : ℚ) :
    ∀ fuel level, maxLevel - level ≤ fuel → level ≤ maxLevel →
      randLevelLoop maxLevel t r level ≤ maxLevel := by
  intro fuel
  induction fuel with
  | zero =>
    intro level hf hl
    rw [randLevelLoop]
    rw [dif_neg (by omega)]
    exact hl
  | succ f ih =>
    intro level hf hl
    rw [randLevelLoop]
    by_cases hcond : level < maxLevel ∧ r < t.getD level 0
    · rw [dif_pos hcond]
      exact ih (level + 1) (by omega) (by omega)
    · rw [dif_neg hcond]
      exact hl

theorem randLevelLoop_ge (maxLevel : Nat) (t : List ℚ) (r : ℚ) :
    ∀ fuel level, maxLevel - level ≤ fuel → level ≤ randLevelLoop maxLevel t r level := by
  intro fuel
  induction fuel with
  | zero =>
    intro level hf
    rw [randLevelLoop]
    by_cases hcond : level < maxLevel ∧ r < t.getD level 0
    · omega
    · rw [dif_neg hcond]
  | succ f ih =>
    intro level hf
    rw [randLevelLoop]
    by_cases hcond : level < maxLevel ∧ r < t.getD level 0
    · rw [dif_pos hcond]
      have := ih (level + 1) (by omega)
      omega
    · rw [dif_neg hcond]

theorem randLevelLoop_take (maxLevel : Nat) (t : List ℚ) (r : ℚ) :
    ∀ fuel level, maxLevel - level ≤ fuel →
      randLevelLoop maxLevel t r level = randLevelLoop maxLevel (t.take maxLevel) r level := by
  intro fuel
  induction fuel with
  | zero =>
    intro level hf
    rw [randLevelLoop]
    conv_rhs => rw [randLevelLoop]
    rw [dif_neg (by omega), dif_neg (by omega)]
  | succ f ih =>
    intro level hf
    rw [randLevelLoop]
    conv_rhs => rw [randLevelLoop]
    by_cases hlm : level < maxLevel
    · have hgd : (t.take maxLevel).getD level 0 = t.getD level 0 := by
        rw [List.getD_eq_get?, List.getD_eq_get?, List.get?_take hlm]
      by_cases hcond : level < maxLevel ∧ r < t.getD level 0
      · have hcond' : level < maxLevel ∧ r < (t.take maxLevel).getD level 0 :=
          ⟨hcond.1, by rw [hgd]; exact hcond.2⟩
        rw [dif_pos hcond, dif_pos hcond']
        exact ih (level + 1) (by omega)
      · have hcond' : ¬ (level < maxLevel ∧ r < (t.take maxLevel).getD level 0) := by
          rw [hgd]
          exact hcond
        rw [dif_neg hcond, dif_neg hcond']
    · rw [dif_neg (by omega), dif_neg (by omega)]

theorem rightmostBelow_spec {s : SkipList V} {l : List Nat}
    (hsorted : l.Pairwise (s.keyAt · < s.keyAt ·)) (i : Nat) (k : Int) :
    (rightmostBelow s l i k = Ptr.head ∧ ∀ m ∈ chainAt s l i, ¬ (s.keyAt m < k)) ∨
    (∃ m, rightmostBelow s l i k = Ptr.node m ∧ m ∈ chainAt s l i ∧ s.keyAt m < k ∧
      ∀ m' ∈ chainAt s l i, s.keyAt m' < k → s.keyAt m' ≤ s.keyAt m) := by
  rcases List.eq_nil_or_concat ((chainAt s l i).filter (ltKey s k)) with hF | ⟨F', m, hF⟩
  · left
    constructor
    · unfold rightmostBelow
      rw [hF]
      rfl
    · intro m hm hlt
      have : m ∈ (chainAt s l i).filter (ltKey s k) :=
        List.mem_filter.mpr ⟨hm, by simp [ltKey, hlt]⟩
      rw [hF] at this
      cases this
  · right
    rw [List.concat_eq_append] at hF
    have hmF : m ∈ (chainAt s l i).filter (ltKey s k) := by
      rw [hF]
      simp
    have hmc := List.mem_filter.mp hmF
    have hmk : s.keyAt m < k := by simpa [ltKey] using hmc.2
    refine ⟨m, ?_, hmc.1, hmk, ?_⟩
    · unfold rightmostBelow
      rw [hF, foldl_node_concat]
    · intro m' hm' hk'
      have hm'F : m' ∈ (chainAt s l i).filter (ltKey s k) :=
        List.mem_filter.mpr ⟨hm', by simp [ltKey, hk']⟩
      rw [hF] at hm'F
      rcases List.mem_append.mp hm'F with h | h
      · have hpw : ((chainAt s l i).filter (ltKey s k)).Pairwise
            (s.keyAt · < s.keyAt ·) :=
          (chainAt_pairwise hsorted i).sublist (List.filter_sublist _)
        rw [hF, List.pairwise_append] at hpw
        have := hpw.2.2 m' h m (List.mem_singleton.mpr rfl)
        omega
      · rw [List.mem_singleton.mp h]

theorem count_key_one {s : SkipList V} {l : List Nat}
    (hsorted : l.Pairwise (s.keyAt · < s.keyAt ·)) {k : Int} {nid : Nat}
    (hmem : nid ∈ l) (hkey : s.keyAt nid = k) :
    l.countP (fun n => decide (s.keyAt n = k)) = 1 := by
  induction l with
  | nil => cases hmem
  | cons x t ih =>
    rw [List.pairwise_cons] at hsorted
    rw [List.countP_cons]
    rcases List.mem_cons.mp hmem with rfl | hmem'
    · have hzero : t.countP (fun n => decide (s.keyAt n = k)) = 0 := by
        rw [List.countP_eq_zero]
        intro b hb
        have := hsorted.1 b hb
        simp only [decide_eq_true_eq]
        omega
      rw [hzero]
      simp [hkey]
    · have hx : ¬ (s.keyAt x = k) := by
        have := hsorted.1 nid hmem'
        omega
      rw [ih hsorted.2 hmem']
      simp [hx]

theorem removed_key_absent {s : SkipList V} {l : List Nat}
    (hsorted : l.Pairwise (s.keyAt · < s.keyAt ·)) {k : Int} {nid : Nat} {rest : List Nat}
    (hdw : l.dropWhile (ltKey s k) = nid :: rest) (hk : s.keyAt nid = k) :
    ∀ m ∈ l.takeWhile (ltKey s k) ++ rest, s.keyAt m ≠ k := by
  intro m hm
  rcases List.mem_append.mp hm with h | h
  · have := takeWhile_all_lt h
    omega
  · have hpw : (l.dropWhile (ltKey s k)).Pairwise (s.keyAt · < s.keyAt ·) :=
      hsorted.sublist (List.dropWhile_sublist _)
    rw [hdw, List.pairwise_cons] at hpw
    have := hpw.1 m h
    omega

theorem Set_then_mem {s : SkipList V} {l : List Nat} (hwf : WFwith s l) (k : Int) (v : V)
    {lvl : Nat} (h1 : 1 ≤ lvl) (h2 : lvl ≤ s.maxLevel) :
    ∃ l1 nid, WFwith (s.Set k v lvl).1 l1 ∧ nid ∈ l1 ∧
      (s.Set k v lvl).1.keyAt nid = k ∧ (s.Set k v lvl).1.valueAt nid = some v ∧
      (s.Set k v lvl).2 = Ptr.node nid := by
  by_cases hmem : ∃ nid ∈ l, s.keyAt nid = k
  · obtain ⟨nid, hm, hk⟩ := hmem
    obtain ⟨s', heq, hwf', -, -, hval, -, hframe, -⟩ := Set_update_spec hwf hm hk v lvl
    rw [heq]
    exact ⟨l, nid, hwf', hm, by rw [(hframe nid).1, hk], hval, rfl⟩
  · push_neg at hmem
    obtain ⟨s4, heq, hwf4, -, -, hkey, hval, -, -⟩ := Set_insert_full hwf hmem v h1 h2
    rw [heq]
    exact ⟨_, s.store.length, hwf4,
      List.mem_append.mpr (Or.inr (List.mem_cons_self _ _)), hkey, hval, rfl⟩

theorem get?_drop_mem {α : Type} {l : List α} {n : Nat} {e : α} (h : e ∈ l.drop n) :
    ∃ j, l.get? (n + j) = some e := by
  obtain ⟨j, hj⟩ := List.mem_iff_get?.mp h
  exact ⟨j, by rw [← List.get?_drop]; exact hj⟩

theorem insertElement_drop (s : SkipList V) (prevs : List Ptr) (k : Int) (v : V) (lvl : Nat) :
    ∀ e ∈ (s.insertElement prevs k v lvl).1.store.drop s.store.length,
      e.next.length = lvl := by
  intro e he
  obtain ⟨j, hj⟩ := get?_drop_mem he
  have hlen : (s.insertElement prevs k v lvl).1.store.length = s.store.length + 1 := by
    show ((SkipList.insertLinks prevs s.store.length lvl
        (s.pushElem ⟨List.replicate lvl none, k, v⟩)).setLen _).store.length = _
    rw [setLen_store, insertLinks_store_length, pushElem_store_length]
  have hjlt : s.store.length + j < (s.insertElement prevs k v lvl).1.store.length :=
    (List.get?_eq_some.mp hj).1
  rw [hlen] at hjlt
  have hj0 : j = 0 := by omega
  subst hj0
  have hh : (s.insertElement prevs k v lvl).1.heightAt s.store.length = lvl := by
    show ((SkipList.insertLinks prevs s.store.length lvl
        (s.pushElem ⟨List.replicate lvl none, k, v⟩)).setLen _).heightAt _ = _
    rw [setLen_heightAt, insertLinks_heightAt, pushElem_heightAt_new]
    simp
  unfold SkipList.heightAt at hh
  rw [Nat.add_zero] at hj
  rw [hj] at hh
  exact hh

theorem Set_new_entries_height (s : SkipList V) (k : Int) (v : V) (lvl : Nat) :
    ∀ e ∈ (s.Set k v lvl).1.store.drop s.store.length, e.next.length = lvl := by
  unfold SkipList.Set
  dsimp only
  cases hc : (s.setCache ((s.getPrevElementNodes k).map some)).ptrNext
      ((s.getPrevElementNodes k).getD 0 Ptr.head) 0 with
  | none =>
    intro e he
    exact insertElement_drop (s.setCache ((s.getPrevElementNodes k).map some))
      (s.getPrevElementNodes k) k v lvl e he
  | some nid =>
    dsimp only
    by_cases hle : (s.setCache ((s.getPrevElementNodes k).map some)).keyAt nid ≤ k
    · rw [if_pos hle]
      intro e he
      exfalso
      have hdrop : ((s.setCache ((s.getPrevElementNodes k).map some)).setValue nid v).store.drop
          s.store.length = [] := by
        apply List.drop_eq_nil_of_le
        rw [setValue_store_length, setCache_store]
      rw [hdrop] at he
      cases he
    · rw [if_neg hle]
      intro e he
      exact insertElement_drop (s.setCache ((s.getPrevElementNodes k).map some))
        (s.getPrevElementNodes k) k v lvl e he

/-! The claim theorems. -/

/-- Claim C7: for every configured maxLevel in [1, 64], every random draw, and every
probability table, `randLevel` returns a height in [1, maxLevel], so every entry
inserted by `Set` with an oracle-drawn height has a forward array whose length is
between 1 and maxLevel inclusive. -/
theorem C7_randLevel_range {V : Type} (s : SkipList V) (r : ℚ)
    (hm1 : 1 ≤ s.maxLevel) (hm64 : s.maxLevel ≤ 64) :
    1 ≤ s.randLevel r ∧ s.randLevel r ≤ s.maxLevel ∧
    ∀ (k : Int) (v : V), ∀ e ∈ (s.Set k v (s.randLevel r)).1.store.drop s.store.length,
      1 ≤ e.next.length ∧ e.next.length ≤ s.maxLevel := by
  have hge := randLevelLoop_ge s.maxLevel s.probTable r s.maxLevel 1 (by omega)
  have hle := randLevelLoop_le s.maxLevel s.probTable r s.maxLevel 1 (by omega) hm1
  refine ⟨hge, hle, ?_⟩
  intro k v e he
  rw [Set_new_entries_height s k v (s.randLevel r) e he]
  exact ⟨hge, hle⟩

/-- Witness for C7 at the concrete list `wList` and draw `1/2`. -/
theorem C7_witness :
    1 ≤ wList.randLevel (1/2) ∧ wList.randLevel (1/2) ≤ wList.maxLevel ∧
    ∀ (k : Int) (v : String),
      ∀ e ∈ (wList.Set k v (wList.randLevel (1/2))).1.store.drop wList.store.length,
        1 ≤ e.next.length ∧ e.next.length ≤ wList.maxLevel :=
  C7_randLevel_range wList (1/2) (by decide) (by decide)

/-- Claim C8: `NewWithMaxLevel` fails fast (panics, modeled as `none`) for every
maxLevel outside [1, 64] and never clamps; inside the range it returns a list with
exactly that maxLevel, default probability 1/e, a probability table of length
maxLevel, and a header with maxLevel forward slots; `New` is `NewWithMaxLevel 18`. -/
theorem C8_constructor {V : Type} (m : Int) :
    ((m < 1 ∨ 64 < m) → NewWithMaxLevel (V := V) m = none) ∧
    (1 ≤ m → m ≤ 64 → ∃ s : SkipList V, NewWithMaxLevel m = some s ∧
      (s.maxLevel : Int) = m ∧ s.probability = DefaultProbability ∧
      s.probTable = probabilityTable DefaultProbability s.maxLevel ∧
      s.probTable.length = s.maxLevel ∧ s.next.length = s.maxLevel ∧
      s.prevNodesCache.length = s.maxLevel ∧ s.length = 0 ∧ s.store = []) ∧
    New (V := V) = NewWithMaxLevel 18 := by
  refine ⟨?_, ?_, rfl⟩
  · intro h
    unfold NewWithMaxLevel
    rw [if_pos h]
  · intro hm1 hm64
    have hc : ¬ (m < 1 ∨ m > 64) := by omega
    unfold NewWithMaxLevel
    rw [if_neg hc]
    refine ⟨_, rfl, ?_, rfl, rfl, probabilityTable_length _ _, by simp, by simp, rfl, rfl⟩
    show ((m.toNat : Nat) : Int) = m
    omega

/-- Witness for C8 at the rejected level 0 and the accepted level 18. -/
theorem C8_witness :
    (NewWithMaxLevel (V := String) 0 = none) ∧
    (∃ s : SkipList String, NewWithMaxLevel 18 = some s ∧
      (s.maxLevel : Int) = 18 ∧ s.probability = DefaultProbability ∧
      s.probTable = probabilityTable DefaultProbability s.maxLevel ∧
      s.probTable.length = s.maxLevel ∧ s.next.length = s.maxLevel ∧
      s.prevNodesCache.length = s.maxLevel ∧ s.length = 0 ∧ s.store = []) :=
  ⟨(C8_constructor 0).1 (by decide), (C8_constructor 18).2.1 (by decide) (by decide)⟩

/-- Claim C2: for every well-formed list state and key `k`, the predecessor search
returns, for each level `i` from `maxLevel-1` down to `0`, the rightmost node at
level `i` whose key is strictly less than `k` (the header if none); the local
traversal inside `Get` reaches the same level-0 position. -/
theorem C2_predecessor_search {V : Type} {s : SkipList V} {l : List Nat}
    (hwf : WFwith s l) (k : Int) :
    (s.getPrevElementNodes k).length = s.maxLevel ∧
    (∀ i < s.maxLevel,
      (s.getPrevElementNodes k).getD i Ptr.head = rightmostBelow s l i k) ∧
    (∀ i < s.maxLevel,
      (rightmostBelow s l i k = Ptr.head ∧ ∀ m ∈ chainAt s l i, ¬ (s.keyAt m < k)) ∨
      (∃ m, rightmostBelow s l i k = Ptr.node m ∧ m ∈ chainAt s l i ∧ s.keyAt m < k ∧
        ∀ m' ∈ chainAt s l i, s.keyAt m' < k → s.keyAt m' ≤ s.keyAt m)) ∧
    s.getLoop k s.store.length s.maxLevel Ptr.head =
      s.ptrNext (rightmostBelow s l 0 k) 0 := by
  refine ⟨getPrevElementNodes_length s k, fun i hi => getPrevElementNodes_getD hwf k hi,
    fun i _ => rightmostBelow_spec hwf.sorted i k, ?_⟩
  exact getLoop_spec hwf.sorted hwf.links
    (length_le_store (pairwise_nodup hwf.sorted) hwf.valid) hwf.maxLevel_pos le_rfl
    (validStart_head s l s.maxLevel k)

/-- Witness for C2 at the concrete list `wList` and key 4. -/
theorem C2_witness :
    (wList.getPrevElementNodes 4).length = wList.maxLevel ∧
    (∀ i < wList.maxLevel,
      (wList.getPrevElementNodes 4).getD i Ptr.head = rightmostBelow wList [1, 0] i 4) ∧
    (∀ i < wList.maxLevel,
      (rightmostBelow wList [1, 0] i 4 = Ptr.head ∧
        ∀ m ∈ chainAt wList [1, 0] i, ¬ (wList.keyAt m < 4)) ∨
      (∃ m, rightmostBelow wList [1, 0] i 4 = Ptr.node m ∧ m ∈ chainAt wList [1, 0] i ∧
        wList.keyAt m < 4 ∧
        ∀ m' ∈ chainAt wList [1, 0] i, wList.keyAt m' < 4 → wList.keyAt m' ≤ wList.keyAt m)) ∧
    wList.getLoop 4 wList.store.length wList.maxLevel Ptr.head =
      wList.ptrNext (rightmostBelow wList [1, 0] 0 4) 0 :=
  C2_predecessor_search (by decide) 4

/-- Claim C5: removing a key that is not present returns absent and leaves the
stored entries, all forward links at every level, and `Len` unchanged (only the
traversal scratch cache may change). -/
theorem C5_remove_absent {V : Type} {s : SkipList V} {l : List Nat}
    (hwf : WFwith s l) {k : Int} (habs : ∀ nid ∈ l, s.keyAt nid ≠ k) :
    (s.Remove k).2 = none ∧ (s.Remove k).1.store = s.store ∧
    (s.Remove k).1.next = s.next ∧ (s.Remove k).1.Len = s.Len ∧
    (s.Remove k).1.maxLevel = s.maxLevel ∧
    (s.Remove k).1.probability = s.probability ∧
    (s.Remove k).1.probTable = s.probTable := by
  rw [Remove_absent_spec hwf habs]
  exact ⟨rfl, rfl, rfl, rfl, rfl, rfl, rfl⟩

/-- Witness for C5 at the concrete list `wList` and the absent key 3. -/
theorem C5_witness :
    (wList.Remove 3).2 = none ∧ (wList.Remove 3).1.store = wList.store ∧
    (wList.Remove 3).1.next = wList.next ∧ (wList.Remove 3).1.Len = wList.Len ∧
    (wList.Remove 3).1.maxLevel = wList.maxLevel ∧
    (wList.Remove 3).1.probability = wList.probability ∧
    (wList.Remove 3).1.probTable = wList.probTable :=
  C5_remove_absent (l := [1, 0]) (by decide) (by decide)

/-- Claim C3: `Set(k, v)` updates in place (same store, same count, returning the
existing entry, whose value becomes `v`) exactly when an entry with key `k` exists;
otherwise — in particular whenever the candidate's key is strictly greater than
`k` — it allocates a new entry; and after any `Set`, exactly one entry with key `k`
exists and it holds `v`. -/
theorem C3_set_update_iff {V : Type} {s : SkipList V} {l : List Nat}
    (hwf : WFwith s l) (k : Int) (v : V) {lvl : Nat}
    (h1 : 1 ≤ lvl) (h2 : lvl ≤ s.maxLevel) :
    ((∃ nid ∈ l, s.keyAt nid = k) →
      (s.Set k v lvl).1.store.length = s.store.length ∧
      (s.Set k v lvl).1.length = s.length ∧
      ∃ nid ∈ l, s.keyAt nid = k ∧ (s.Set k v lvl).2 = Ptr.node nid ∧
        (s.Set k v lvl).1.valueAt nid = some v) ∧
    ((∀ nid ∈ l, s.keyAt nid ≠ k) →
      (s.Set k v lvl).1.store.length = s.store.length + 1 ∧
      (s.Set k v lvl).1.length = s.length + 1 ∧
      (s.Set k v lvl).2 = Ptr.node s.store.length) ∧
    (∃ l1 nid, WFwith (s.Set k v lvl).1 l1 ∧ (s.Set k v lvl).2 = Ptr.node nid ∧
      nid ∈ l1 ∧ (s.Set k v lvl).1.keyAt nid = k ∧
      (s.Set k v lvl).1.valueAt nid = some v ∧
      l1.countP (fun n => decide ((s.Set k v lvl).1.keyAt n = k)) = 1) := by
  refine ⟨?_, ?_, ?_⟩
  · rintro ⟨nid, hm, hk⟩
    obtain ⟨s', heq, -, hlen, hstore, hval, -, -, -⟩ := Set_update_spec hwf hm hk v lvl
    rw [heq]
    exact ⟨hstore, hlen, nid, hm, hk, rfl, hval⟩
  · intro habs
    obtain ⟨s4, heq, -, hstore, hlen, -, -, -, -⟩ := Set_insert_full hwf habs v h1 h2
    rw [heq]
    exact ⟨hstore, hlen, rfl⟩
  · obtain ⟨l1, nid, hwf1, hm1, hk1, hv1, hr1⟩ := Set_then_mem hwf k v h1 h2
    exact ⟨l1, nid, hwf1, hr1, hm1, hk1, hv1, count_key_one hwf1.sorted hm1 hk1⟩

/-- Witness for C3 at the concrete list `wList`, key 5, value "z", height 1. -/
theorem C3_witness :
    ((∃ nid ∈ [1, 0], wList.keyAt nid = 5) →
      (wList.Set 5 "z" 1).1.store.length = wList.store.length ∧
      (wList.Set 5 "z" 1).1.length = wList.length ∧
      ∃ nid ∈ [1, 0], wList.keyAt nid = 5 ∧ (wList.Set 5 "z" 1).2 = Ptr.node nid ∧
        (wList.Set 5 "z" 1).1.valueAt nid = some "z") ∧
    ((∀ nid ∈ [1, 0], wList.keyAt nid ≠ 5) →
      (wList.Set 5 "z" 1).1.store.length = wList.store.length + 1 ∧
      (wList.Set 5 "z" 1).1.length = wList.length + 1 ∧
      (wList.Set 5 "z" 1).2 = Ptr.node wList.store.length) ∧
    (∃ l1 nid, WFwith (wList.Set 5 "z" 1).1 l1 ∧ (wList.Set 5 "z" 1).2 = Ptr.node nid ∧
      nid ∈ l1 ∧ (wList.Set 5 "z" 1).1.keyAt nid = 5 ∧
      (wList.Set 5 "z" 1).1.valueAt nid = some "z" ∧
      l1.countP (fun n => decide ((wList.Set 5 "z" 1).1.keyAt n = 5)) = 1) :=
  C3_set_update_iff (l := [1, 0]) (by decide) 5 "z" (by decide) (by decide)

/-- Claim C10: a successful `Remove(k)` mutates only the predecessors' forward
pointers and the entry count — every forward pointer at any position other than
the level-`i` predecessor's level-`i` slot (for `i` below the removed node's
height) is unchanged — and leaves the removed entry's own key, value and
forward-pointer array untouched, so the returned entry still yields the stored
pair and its `Next` still returns the entry that followed it at the moment of
removal. -/
theorem C10_remove_frame {V : Type} {s : SkipList V} {l : List Nat}
    (hwf : WFwith s l) {k : Int} {nid : Nat} (hmem : nid ∈ l) (hkey : s.keyAt nid = k) :
    ∃ s' rest, s.Remove k = (s', some (Ptr.node nid)) ∧
      s'.store.get? nid = s.store.get? nid ∧
      s'.keyAt nid = s.keyAt nid ∧ s'.valueAt nid = s.valueAt nid ∧
      s'.heightAt nid = s.heightAt nid ∧
      l.dropWhile (ltKey s k) = nid :: rest ∧
      ((s'.store.get? nid).bind Element.Next) = rest.head? ∧
      s'.ptrNext (Ptr.node nid) 0 = s.ptrNext (Ptr.node nid) 0 ∧
      s'.length = s.length - 1 ∧
      (∀ n, s'.keyAt n = s.keyAt n ∧ s'.valueAt n = s.valueAt n ∧
        s'.heightAt n = s.heightAt n) ∧
      (∀ (p : Ptr) (i : Nat), ¬ (i < s.heightAt nid ∧ p = rightmostBelow s l i k) →
        s'.ptrNext p i = s.ptrNext p i) := by
  obtain ⟨s', rest, hdw, heq, hwf', hlen, -, hget, hnext0, hframe, -, -, -, hptrframe⟩ :=
    Remove_mem_full hwf hmem hkey
  have hsame : s'.ptrNext (Ptr.node nid) 0 = s.ptrNext (Ptr.node nid) 0 := by
    unfold SkipList.ptrNext
    dsimp only
    rw [hget]
  refine ⟨s', rest, heq, hget, (hframe nid).1, (hframe nid).2.1, (hframe nid).2.2,
    hdw, ?_, hsame, hlen, hframe, hptrframe⟩
  rw [ptrNext_zero_bind]
  exact hnext0

/-- Witness for C10 at the concrete list `wList`, removing key 2. -/
theorem C10_witness :
    ∃ s' rest, wList.Remove 2 = (s', some (Ptr.node 1)) ∧
      s'.store.get? 1 = wList.store.get? 1 ∧
      s'.keyAt 1 = wList.keyAt 1 ∧ s'.valueAt 1 = wList.valueAt 1 ∧
      s'.heightAt 1 = wList.heightAt 1 ∧
      [1, 0].dropWhile (ltKey wList 2) = 1 :: rest ∧
      ((s'.store.get? 1).bind Element.Next) = rest.head? ∧
      s'.ptrNext (Ptr.node 1) 0 = wList.ptrNext (Ptr.node 1) 0 ∧
      s'.length = wList.length - 1 ∧
      (∀ n, s'.keyAt n = wList.keyAt n ∧ s'.valueAt n = wList.valueAt n ∧
        s'.heightAt n = wList.heightAt n) ∧
      (∀ (p : Ptr) (i : Nat), ¬ (i < wList.heightAt 1 ∧ p = rightmostBelow wList [1, 0] i 2) →
        s'.ptrNext p i = wList.ptrNext p i) :=
  C10_remove_frame (l := [1, 0]) (by decide) (List.mem_cons_self 1 [0]) (by decide)

/-- Claim C4: `Get(k)` immediately after `Set(k, v)` returns an entry holding `v`;
`Get(k)` after `Set(k, v)` followed by `Remove(k)` returns absent. -/
theorem C4_roundtrip {V : Type} {s : SkipList V} {l : List Nat} (hwf : WFwith s l)
    (k : Int) (v : V) {lvl : Nat} (h1 : 1 ≤ lvl) (h2 : lvl ≤ s.maxLevel) :
    (∃ nid, (s.Set k v lvl).1.Get k = some (Ptr.node nid) ∧
      (s.Set k v lvl).1.valueAt nid = some v) ∧
    ((s.Set k v lvl).1.Remove k).1.Get k = none := by
  obtain ⟨l1, nid, hwf1, hm1, hk1, hv1, -⟩ := Set_then_mem hwf k v h1 h2
  refine ⟨⟨nid, Get_spec_mem hwf1 hm1 hk1, hv1⟩, ?_⟩
  obtain ⟨s'', rest, hdw, heq, hwf'', -, -, -, -, hframe, -⟩ := Remove_mem_full hwf1 hm1 hk1
  rw [heq]
  refine Get_spec_absent hwf'' ?_
  intro m hm
  rw [(hframe m).1]
  exact removed_key_absent hwf1.sorted hdw hk1 m hm

/-- Witness for C4 at the concrete list `wList`, key 3, value "c", height 2. -/
theorem C4_witness :
    (∃ nid, (wList.Set 3 "c" 2).1.Get 3 = some (Ptr.node nid) ∧
      (wList.Set 3 "c" 2).1.valueAt nid = some "c") ∧
    ((wList.Set 3 "c" 2).1.Remove 3).1.Get 3 = none :=
  C4_roundtrip (l := [1, 0]) (by decide) 3 "c" (by decide) (by decide)

/-- Claim C6: `Len` equals the number of entries in the level-0 chain; `Set` on a
new key increments it by one, `Set` on an existing key leaves it unchanged, a
successful `Remove` decrements it by one, and a failed `Remove` changes nothing. -/
theorem C6_len_accounting {V : Type} {s : SkipList V} (h : Reachable s) (k : Int) (v : V)
    {lvl : Nat} (h1 : 1 ≤ lvl) (h2 : lvl ≤ s.maxLevel) :
    ∃ l, WFwith s l ∧ s.Len = ((chainAt s l 0).length : Int) ∧
      ((∀ nid ∈ l, s.keyAt nid ≠ k) → (s.Set k v lvl).1.Len = s.Len + 1) ∧
      ((∃ nid ∈ l, s.keyAt nid = k) → (s.Set k v lvl).1.Len = s.Len) ∧
      ((∃ nid ∈ l, s.keyAt nid = k) →
        (s.Remove k).1.Len = s.Len - 1 ∧ (s.Remove k).2 ≠ none) ∧
      ((∀ nid ∈ l, s.keyAt nid ≠ k) →
        (s.Remove k).1.Len = s.Len ∧ (s.Remove k).2 = none) := by
  obtain ⟨l, hwf⟩ := Reachable_WF h
  refine ⟨l, hwf, ?_, ?_, ?_, ?_, ?_⟩
  · rw [chainAt_zero hwf.height_pos]
    exact hwf.len_eq
  · intro habs
    obtain ⟨s4, heq, -, -, hlen, -, -, -, -, -, -⟩ := Set_insert_full hwf habs v h1 h2
    rw [heq]
    exact hlen
  · rintro ⟨nid, hm, hk⟩
    obtain ⟨s', heq, -, hlen, -, -, -, -, -, -⟩ := Set_update_spec hwf hm hk v lvl
    rw [heq]
    exact hlen
  · rintro ⟨nid, hm, hk⟩
    obtain ⟨s', rest, hdw, heq, -, hlen, -⟩ := Remove_mem_full hwf hm hk
    rw [heq]
    exact ⟨hlen, by simp⟩
  · intro habs
    rw [Remove_absent_spec hwf habs]
    exact ⟨rfl, rfl⟩

/-- Witness for C6 at a freshly built two-level list holding key 5. -/
theorem C6_witness :
    ∃ l, WFwith (((NewWithMaxLevel (V := String) 2).getD
        ⟨[], 0, 0, 0, [], [], []⟩).Set 5 "a" 1).1 l ∧
      (((NewWithMaxLevel (V := String) 2).getD
        ⟨[], 0, 0, 0, [], [], []⟩).Set 5 "a" 1).1.Len =
        ((chainAt (((NewWithMaxLevel (V := String) 2).getD
          ⟨[], 0, 0, 0, [], [], []⟩).Set 5 "a" 1).1 l 0).length : Int) ∧
      ((∀ nid ∈ l, (((NewWithMaxLevel (V := String) 2).getD
          ⟨[], 0, 0, 0, [], [], []⟩).Set 5 "a" 1).1.keyAt nid ≠ 5) →
        ((((NewWithMaxLevel (V := String) 2).getD
          ⟨[], 0, 0, 0, [], [], []⟩).Set 5 "a" 1).1.Set 5 "b" 1).1.Len =
          (((NewWithMaxLevel (V := String) 2).getD
            ⟨[], 0, 0, 0, [], [], []⟩).Set 5 "a" 1).1.Len + 1) ∧
      ((∃ nid ∈ l, (((NewWithMaxLevel (V := String) 2).getD
          ⟨[], 0, 0, 0, [], [], []⟩).Set 5 "a" 1).1.keyAt nid = 5) →
        ((((NewWithMaxLevel (V := String) 2).getD
          ⟨[], 0, 0, 0, [], [], []⟩).Set 5 "a" 1).1.Set 5 "b" 1).1.Len =
          (((NewWithMaxLevel (V := String) 2).getD
            ⟨[], 0, 0, 0, [], [], []⟩).Set 5 "a" 1).1.Len) ∧
      ((∃ nid ∈ l, (((NewWithMaxLevel (V := String) 2).getD
          ⟨[], 0, 0, 0, [], [], []⟩).Set 5 "a" 1).1.keyAt nid = 5) →
        ((((NewWithMaxLevel (V := String) 2).getD
          ⟨[], 0, 0, 0, [], [], []⟩).Set 5 "a" 1).1.Remove 5).1.Len =
          (((NewWithMaxLevel (V := String) 2).getD
            ⟨[], 0, 0, 0, [], [], []⟩).Set 5 "a" 1).1.Len - 1 ∧
        ((((NewWithMaxLevel (V := String) 2).getD
          ⟨[], 0, 0, 0, [], [], []⟩).Set 5 "a" 1).1.Remove 5).2 ≠ none) ∧
      ((∀ nid ∈ l, (((NewWithMaxLevel (V := String) 2).getD
          ⟨[], 0, 0, 0, [], [], []⟩).Set 5 "a" 1).1.keyAt nid ≠ 5) →
        ((((NewWithMaxLevel (V := String) 2).getD
          ⟨[], 0, 0, 0, [], [], []⟩).Set 5 "a" 1).1.Remove 5).1.Len =
          (((NewWithMaxLevel (V := String) 2).getD
            ⟨[], 0, 0, 0, [], [], []⟩).Set 5 "a" 1).1.Len ∧
        ((((NewWithMaxLevel (V := String) 2).getD
          ⟨[], 0, 0, 0, [], [], []⟩).Set 5 "a" 1).1.Remove 5).2 = none) :=
  C6_len_accounting
    (Reachable.set _ 5 "a" 1 (Reachable.fresh 2 _ rfl) (by decide) (by decide))
    5 "b" (by decide) (by decide)

/-- Claim C1: on every state reachable by `Set`/`Remove` from a fresh list (with
oracle heights in [1, maxLevel]), the walk from `Front` following `Next` visits
exactly the live entries, once each, in strictly increasing key order, and the
level-0 chain is that complete sorted sequence. -/
theorem C1_order_invariant {V : Type} {s : SkipList V} (h : Reachable s) :
    ∃ l, WFwith s l ∧ s.toList = l ∧ l.Pairwise (s.keyAt · < s.keyAt ·) ∧ l.Nodup ∧
      chainAt s l 0 = l := by
  obtain ⟨l, hwf⟩ := Reachable_WF h
  exact ⟨l, hwf, toList_eq hwf, hwf.sorted, pairwise_nodup hwf.sorted,
    chainAt_zero hwf.height_pos⟩

/-- Witness for C1 after two inserts on a fresh two-level list. -/
theorem C1_witness :
    ∃ l, WFwith ((((NewWithMaxLevel (V := String) 2).getD
        ⟨[], 0, 0, 0, [], [], []⟩).Set 5 "a" 1).1.Set 2 "b" 2).1 l ∧
      ((((NewWithMaxLevel (V := String) 2).getD
        ⟨[], 0, 0, 0, [], [], []⟩).Set 5 "a" 1).1.Set 2 "b" 2).1.toList = l ∧
      l.Pairwise (((((NewWithMaxLevel (V := String) 2).getD
        ⟨[], 0, 0, 0, [], [], []⟩).Set 5 "a" 1).1.Set 2 "b" 2).1.keyAt · <
        ((((NewWithMaxLevel (V := String) 2).getD
        ⟨[], 0, 0, 0, [], [], []⟩).Set 5 "a" 1).1.Set 2 "b" 2).1.keyAt ·) ∧
      l.Nodup ∧
      chainAt ((((NewWithMaxLevel (V := String) 2).getD
        ⟨[], 0, 0, 0, [], [], []⟩).Set 5 "a" 1).1.Set 2 "b" 2).1 l 0 = l :=
  C1_order_invariant
    (Reachable.set _ 2 "b" 2
      (Reachable.set _ 5 "a" 1 (Reachable.fresh 2 _ rfl) (by decide) (by decide))
      (by decide) (by decide))

/-- Claim C9: on every reachable state no forward-array index is out of bounds:
the header has maxLevel slots, every node on a level-`i` chain is a valid store
index of height above `i` (and at most maxLevel), the predecessor array has
maxLevel entries, `randLevel` reads the probability table only below maxLevel, and
an insertion writes only the levels below the new node's height. -/
theorem C9_no_out_of_bounds {V : Type} {s : SkipList V} (h : Reachable s) (k : Int) :
    s.next.length = s.maxLevel ∧ s.probTable.length = s.maxLevel ∧ 1 ≤ s.maxLevel ∧
    (∃ l, WFwith s l ∧ ∀ i < s.maxLevel, ∀ nid ∈ chainAt s l i,
      nid < s.store.length ∧ i < s.heightAt nid ∧ s.heightAt nid ≤ s.maxLevel) ∧
    (s.getPrevElementNodes k).length = s.maxLevel ∧
    (∀ r : ℚ, s.randLevel r = randLevelLoop s.maxLevel (s.probTable.take s.maxLevel) r 1) ∧
    (∀ (v : V) (lvl : Nat), ∀ e ∈ (s.Set k v lvl).1.store.drop s.store.length,
      e.next.length = lvl) := by
  obtain ⟨l, hwf⟩ := Reachable_WF h
  refine ⟨hwf.header_len, hwf.probTable_len, hwf.maxLevel_pos, ⟨l, hwf, ?_⟩,
    getPrevElementNodes_length s k, ?_, fun v lvl => Set_new_entries_height s k v lvl⟩
  · intro i _ nid hn
    rw [mem_chainAt] at hn
    exact ⟨hwf.valid nid hn.1, hn.2, hwf.height_le nid hn.1⟩
  · intro r
    exact randLevelLoop_take s.maxLevel s.probTable r s.maxLevel 1 (by omega)

/-- Witness for C9 on a freshly built two-level list holding key 5, probing key 7. -/
theorem C9_witness :
    (((NewWithMaxLevel (V := String) 2).getD
        ⟨[], 0, 0, 0, [], [], []⟩).Set 5 "a" 1).1.next.length =
      (((NewWithMaxLevel (V := String) 2).getD
        ⟨[], 0, 0, 0, [], [], []⟩).Set 5 "a" 1).1.maxLevel ∧
    (((NewWithMaxLevel (V := String) 2).getD
        ⟨[], 0, 0, 0, [], [], []⟩).Set 5 "a" 1).1.probTable.length =
      (((NewWithMaxLevel (V := String) 2).getD
        ⟨[], 0, 0, 0, [], [], []⟩).Set 5 "a" 1).1.maxLevel ∧
    1 ≤ (((NewWithMaxLevel (V := String) 2).getD
        ⟨[], 0, 0, 0, [], [], []⟩).Set 5 "a" 1).1.maxLevel ∧
    (∃ l, WFwith (((NewWithMaxLevel (V := String) 2).getD
        ⟨[], 0, 0, 0, [], [], []⟩).Set 5 "a" 1).1 l ∧
      ∀ i < (((NewWithMaxLevel (V := String) 2).getD
          ⟨[], 0, 0, 0, [], [], []⟩).Set 5 "a" 1).1.maxLevel,
        ∀ nid ∈ chainAt (((NewWithMaxLevel (V := String) 2).getD
          ⟨[], 0, 0, 0, [], [], []⟩).Set 5 "a" 1).1 l i,
          nid < (((NewWithMaxLevel (V := String) 2).getD
            ⟨[], 0, 0, 0, [], [], []⟩).Set 5 "a" 1).1.store.length ∧
          i < (((NewWithMaxLevel (V := String) 2).getD
            ⟨[], 0, 0, 0, [], [], []⟩).Set 5 "a" 1).1.heightAt nid ∧
          (((NewWithMaxLevel (V := String) 2).getD
            ⟨[], 0, 0, 0, [], [], []⟩).Set 5 "a" 1).1.heightAt nid ≤
            (((NewWithMaxLevel (V := String) 2).getD
              ⟨[], 0, 0, 0, [], [], []⟩).Set 5 "a" 1).1.maxLevel) ∧
    ((((NewWithMaxLevel (V := String) 2).getD
        ⟨[], 0, 0, 0, [], [], []⟩).Set 5 "a" 1).1.getPrevElementNodes 7).length =
      (((NewWithMaxLevel (V := String) 2).getD
        ⟨[], 0, 0, 0, [], [], []⟩).Set 5 "a" 1).1.maxLevel ∧
    (∀ r : ℚ, (((NewWithMaxLevel (V := String) 2).getD
        ⟨[], 0, 0, 0, [], [], []⟩).Set 5 "a" 1).1.randLevel r =
      randLevelLoop (((NewWithMaxLevel (V := String) 2).getD
          ⟨[], 0, 0, 0, [], [], []⟩).Set 5 "a" 1).1.maxLevel
        ((((NewWithMaxLevel (V := String) 2).getD
          ⟨[], 0, 0, 0, [], [], []⟩).Set 5 "a" 1).1.probTable.take
          (((NewWithMaxLevel (V := String) 2).getD
            ⟨[], 0, 0, 0, [], [], []⟩).Set 5 "a" 1).1.maxLevel) r 1) ∧
    (∀ (v : String) (lvl : Nat),
      ∀ e ∈ ((((NewWithMaxLevel (V := String) 2).getD
          ⟨[], 0, 0, 0, [], [], []⟩).Set 5 "a" 1).1.Set 7 v lvl).1.store.drop
        (((NewWithMaxLevel (V := String) 2).getD
          ⟨[], 0, 0, 0, [], [], []⟩).Set 5 "a" 1).1.store.length,
        e.next.length = lvl) :=
  C9_no_out_of_bounds
    (Reachable.set _ 5 "a" 1 (Reachable.fresh 2 _ rfl) (by decide) (by decide)) 7

end Skiplist
